import Mathlib

/-! Zero-height genesis export (app/export.go)

A shallow embedding of `ExportAppStateAndValidators` and
`prepForZeroHeightGenesis`.

The two functions orchestrate the staking, distribution, slashing and crisis
keepers of the Cosmos SDK.  The keepers are not part of this repository; they
enter the model as the fields of `Keepers` and `App`.  The stores the export
code itself reads and rewrites (validators, redelegations, unbonding
delegations, signing infos, fee pool) are concrete.

Modelling conventions
* `int64` values are `Int`; the only arithmetic on them is
  `LastBlockHeight() + 1`, which wraps (`wrapInt64`).
* A Go `panic` / `log.Fatal` is the outcome `aborted`, which carries the
  state reached when the process stops.
* Every state-changing keeper call and every context height override made by
  the code is appended to `State.calls`, in program order.
* The local `counter` of the validator loop is never read and is omitted.
-/

namespace HdcExport

/-! ## Data model -/

/-- Raw bytes: store keys and addresses. -/
abbrev Bytes := List Nat

/-- The part of `sdk.Context` the export code uses. -/
structure Context where
  BlockHeight : Int
  IsCheckTx : Bool
deriving DecidableEq, Repr

/-- Method `ctx.WithBlockHeight(h)`: a copy of the context with the height replaced. -/
def Context.WithBlockHeight (ctx : Context) (h : Int) : Context :=
  { ctx with BlockHeight := h }

/-- Header `tmprototypes.Header`, of which only the height is set. -/
structure Header where
  Height : Int
deriving DecidableEq, Repr

/-- Record `stakingtypes.Validator`; `Tokens` determines the bonding power. -/
structure Validator where
  OperatorAddress : Bytes
  Jailed : Bool
  Tokens : Nat
  UnbondingHeight : Int
deriving DecidableEq, Repr

/-- Record `stakingtypes.Delegation`. -/
structure Delegation where
  DelegatorAddress : Bytes
  ValidatorAddress : Bytes
  Shares : Nat
deriving DecidableEq, Repr

/-- Record `stakingtypes.RedelegationEntry`. -/
structure RedelegationEntry where
  CreationHeight : Int
  CompletionTime : Nat
  InitialBalance : Nat
  SharesDst : Nat
deriving DecidableEq, Repr

/-- Record `stakingtypes.Redelegation`. -/
structure Redelegation where
  DelegatorAddress : Bytes
  ValidatorSrcAddress : Bytes
  ValidatorDstAddress : Bytes
  Entries : List RedelegationEntry
deriving DecidableEq, Repr

/-- Record `stakingtypes.UnbondingDelegationEntry`. -/
structure UnbondingDelegationEntry where
  CreationHeight : Int
  CompletionTime : Nat
  InitialBalance : Nat
  Balance : Nat
deriving DecidableEq, Repr

/-- Record `stakingtypes.UnbondingDelegation`. -/
structure UnbondingDelegation where
  DelegatorAddress : Bytes
  ValidatorAddress : Bytes
  Entries : List UnbondingDelegationEntry
deriving DecidableEq, Repr

/-- Record `slashingtypes.ValidatorSigningInfo`. -/
structure ValidatorSigningInfo where
  StartHeight : Int
  IndexOffset : Int
  JailedUntil : Nat
  Tombstoned : Bool
  MissedBlocksCounter : Int
deriving DecidableEq, Repr

/-- Record `distrtypes.FeePool` over a coin type `C` (`sdk.DecCoins`). -/
structure FeePool (C : Type) where
  CommunityPool : C

/-! ## Stores -/

/-- Lexicographic order on byte strings (`bytes.Compare a b < 0`), the order of
every `sdk.KVStore` iterator. -/
def bytesLt : Bytes → Bytes → Bool
  | [], [] => false
  | [], _ :: _ => true
  | _ :: _, [] => false
  | a :: as, b :: bs => if a < b then true else if b < a then false else bytesLt as bs

/-- A key-value store, listed in iteration (ascending key) order. -/
abbrev KVStore (ν : Type) := List (Bytes × ν)

/-- Read `store.Get(key)`. -/
def KVStore.get {ν : Type} (key : Bytes) : KVStore ν → Option ν
  | [] => none
  | (k, v) :: rest => if k = key then some v else KVStore.get key rest

/-- Write `store.Set(key, value)`: overwrite the entry of `key`, or insert it at
its place in key order. -/
def KVStore.set {ν : Type} (key : Bytes) (value : ν) : KVStore ν → KVStore ν
  | [] => [(key, value)]
  | (k, v) :: rest =>
    if k = key then (key, value) :: rest
    else if bytesLt key k then (key, value) :: (k, v) :: rest
    else (k, v) :: KVStore.set key value rest

/-- Test `bytes.HasPrefix(key, [b])` for a one-byte store prefix `b`. -/
def hasKeyPrefix (b : Nat) : Bytes → Bool
  | [] => false
  | x :: _ => x == b

/-- Keys visited by `sdk.KVStorePrefixIterator(store, [b])`: ascending. -/
def KVStorePrefixIterator {ν : Type} (store : KVStore ν) (b : Nat) : List Bytes :=
  (store.filter (fun e => hasKeyPrefix b e.1)).map Prod.fst

/-- Keys visited by `sdk.KVStoreReversePrefixIterator(store, [b])`: the keys that
start with the store prefix, in descending key order. -/
def KVStoreReversePrefixIterator {ν : Type} (store : KVStore ν) (b : Nat) : List Bytes :=
  (KVStorePrefixIterator store b).reverse

/-- Overwrite the first record with the same key as `r`, or append `r`. -/
def setRecord {α κ : Type} [DecidableEq κ] (key : α → κ) (r : α) : List α → List α
  | [] => [r]
  | x :: xs => if key x = key r then r :: xs else x :: setRecord key r xs

/-- The staking module's store. `validators` is the raw store keyed by
`ValidatorsKey ++ operator address`. -/
structure Staking where
  validators : KVStore Validator
  delegations : List Delegation
  redelegations : List Redelegation
  unbondingDelegations : List UnbondingDelegation
deriving DecidableEq, Repr

/-- The distribution module's store: the fee pool and the remaining records
(`rest`: rewards, commission, slash events, balances held for payouts). -/
structure DistrState (C ρ : Type) where
  FeePool : FeePool C
  rest : ρ

/-- All module stores reachable from one `sdk.Context`. -/
structure Stores (C ρ : Type) where
  staking : Staking
  distr : DistrState C ρ
  slashing : List (Bytes × ValidatorSigningInfo)

/-- State-changing keeper calls, context height overrides, and the reads of the
export driver, each with the block height of the context it was made with. -/
inductive Call where
  | WithdrawValidatorCommission (height : Int) (val : Bytes)
  | WithdrawDelegationRewards (height : Int) (del val : Bytes)
  | DeleteAllValidatorSlashEvents (height : Int)
  | DeleteAllValidatorHistoricalRewards (height : Int)
  | WithBlockHeight (height : Int)
  | SetFeePool (height : Int)
  | AfterValidatorCreated (height : Int) (val : Bytes)
  | BeforeDelegationCreated (height : Int) (del val : Bytes)
  | AfterDelegationModified (height : Int) (del val : Bytes)
  | SetRedelegation (height : Int)
  | SetUnbondingDelegation (height : Int)
  | SetValidator (height : Int) (val : Bytes)
  | ApplyAndReturnValidatorSetUpdates (height : Int)
  | SetValidatorSigningInfo (height : Int) (addr : Bytes)
  | ExportGenesis (height : Int)
  | WriteValidators (height : Int)
  | GetConsensusParams (height : Int)
deriving DecidableEq, Repr

/-- Whether the call is a commission or reward withdrawal. -/
def Call.isWithdrawal : Call → Bool
  | .WithdrawValidatorCommission _ _ => true
  | .WithdrawDelegationRewards _ _ _ => true
  | _ => false

/-- The stores together with the log of calls made so far. -/
structure State (C ρ : Type) where
  stores : Stores C ρ
  calls : List Call

/-- Append a call to the log. -/
def State.log {C ρ : Type} (s : State C ρ) (c : Call) : State C ρ :=
  { s with calls := s.calls ++ [c] }

/-- Replace the distribution store. -/
def State.setDistr {C ρ : Type} (s : State C ρ) (d : DistrState C ρ) : State C ρ :=
  { s with stores := { s.stores with distr := d } }

/-- Replace the staking store. -/
def State.setStaking {C ρ : Type} (s : State C ρ) (st : Staking) : State C ρ :=
  { s with stores := { s.stores with staking := st } }

/-- Replace the slashing store. -/
def State.setSlashing {C ρ : Type} (s : State C ρ)
    (sl : List (Bytes × ValidatorSigningInfo)) : State C ρ :=
  { s with stores := { s.stores with slashing := sl } }

/-- Why a run stopped the process. -/
inductive Abort where
  | addressFormat
  | invariantViolation
  | withdrawalFailure
  | validatorNotFound
  | validatorSetUpdate
deriving DecidableEq, Repr

/-- How a call ends: it returns a value, or the process aborts. Both carry the
state reached. -/
inductive Outcome (α σ : Type) where
  | returned (a : α) (s : σ)
  | aborted (why : Abort) (s : σ)

/-- The state an outcome carries. -/
def Outcome.state {α σ : Type} : Outcome α σ → σ
  | .returned _ s => s
  | .aborted _ s => s

/-- Whether the call returned. -/
def Outcome.isReturned {α σ : Type} : Outcome α σ → Bool
  | .returned _ _ => true
  | .aborted _ _ => false

/-- Sequencing: continue with `f` after a return, stop at an abort. -/
def Outcome.andThen {α β σ : Type} (o : Outcome α σ) (f : α → σ → Outcome β σ) : Outcome β σ :=
  match o with
  | .returned a s => f a s
  | .aborted why s => .aborted why s

/-! ## External collaborators -/

/-- The SDK keepers and helpers called by `prepForZeroHeightGenesis`.
The distribution keeper owns the distribution store only: its operations read
the staking store and return a new distribution store. -/
structure Keepers (C ρ : Type) where
  /-- The one-byte store prefix `stakingtypes.ValidatorsKey`. -/
  ValidatorsKey : Nat
  /-- Parser `sdk.ValAddressFromBech32`; `none` is a parse error. -/
  ValAddressFromBech32 : String → Option Bytes
  /-- Rendering `sdk.ValAddress.String`. -/
  ValAddressString : Bytes → String
  /-- Check `CrisisKeeper.AssertInvariants`: `false` when an invariant is broken
  (the keeper then panics). -/
  AssertInvariants : Context → Stores C ρ → Bool
  WithdrawValidatorCommission : Context → Staking → DistrState C ρ → Bytes → Option (DistrState C ρ)
  WithdrawDelegationRewards :
    Context → Staking → DistrState C ρ → Bytes → Bytes → Option (DistrState C ρ)
  DeleteAllValidatorSlashEvents : Context → DistrState C ρ → DistrState C ρ
  DeleteAllValidatorHistoricalRewards : Context → DistrState C ρ → DistrState C ρ
  GetValidatorOutstandingRewardsCoins : Context → ρ → Bytes → C
  AfterValidatorCreated : Context → Staking → DistrState C ρ → Bytes → DistrState C ρ
  BeforeDelegationCreated : Context → Staking → DistrState C ρ → Bytes → Bytes → DistrState C ρ
  AfterDelegationModified : Context → Staking → DistrState C ρ → Bytes → Bytes → DistrState C ρ
  /-- Call `StakingKeeper.ApplyAndReturnValidatorSetUpdates`; `none` is an error. -/
  ApplyAndReturnValidatorSetUpdates : Context → Stores C ρ → Option (Stores C ρ)
  /-- Whether `iter.Close()` of the validator store iterator reports an error. -/
  IterCloseError : Bool

/-! ## Staking and slashing keeper accessors used by the export code -/

/-- Key `stakingtypes.GetValidatorKey(addr)`: the store prefix followed by the address. -/
def GetValidatorKey (b : Nat) (addr : Bytes) : Bytes := b :: addr

/-- Accessor `StakingKeeper.GetValidator(ctx, addr)`. -/
def GetValidator {C ρ : Type} (K : Keepers C ρ) (s : State C ρ) (addr : Bytes) : Option Validator :=
  KVStore.get (GetValidatorKey K.ValidatorsKey addr) s.stores.staking.validators

/-- Accessor `StakingKeeper.SetValidator(ctx, validator)`: the record is stored
under the key of its own operator address. -/
def SetValidator {C ρ : Type} (K : Keepers C ρ) (ctx : Context) (s : State C ρ)
    (validator : Validator) : State C ρ :=
  (s.log (.SetValidator ctx.BlockHeight validator.OperatorAddress)).setStaking
    { s.stores.staking with
      validators := KVStore.set (GetValidatorKey K.ValidatorsKey validator.OperatorAddress)
        validator s.stores.staking.validators }

/-- Validators handed to the callback of `StakingKeeper.IterateValidators`. -/
def IterateValidators {C ρ : Type} (K : Keepers C ρ) (s : State C ρ) : List Validator :=
  (s.stores.staking.validators.filter (fun e => hasKeyPrefix K.ValidatorsKey e.1)).map Prod.snd

/-- Accessor `StakingKeeper.GetAllDelegations(ctx)`. -/
def GetAllDelegations {C ρ : Type} (s : State C ρ) : List Delegation :=
  s.stores.staking.delegations

/-- Store key of a redelegation: delegator, source and destination validator. -/
def REDKey (red : Redelegation) : Bytes × Bytes × Bytes :=
  (red.DelegatorAddress, red.ValidatorSrcAddress, red.ValidatorDstAddress)

/-- Store key of an unbonding delegation: delegator and validator. -/
def UBDKey (ubd : UnbondingDelegation) : Bytes × Bytes :=
  (ubd.DelegatorAddress, ubd.ValidatorAddress)

/-- Accessor `StakingKeeper.SetRedelegation(ctx, red)`. -/
def SetRedelegation {C ρ : Type} (ctx : Context) (s : State C ρ) (red : Redelegation) :
    State C ρ :=
  (s.log (.SetRedelegation ctx.BlockHeight)).setStaking
    { s.stores.staking with
      redelegations := setRecord REDKey red s.stores.staking.redelegations }

/-- Accessor `StakingKeeper.SetUnbondingDelegation(ctx, ubd)`. -/
def SetUnbondingDelegation {C ρ : Type} (ctx : Context) (s : State C ρ)
    (ubd : UnbondingDelegation) : State C ρ :=
  (s.log (.SetUnbondingDelegation ctx.BlockHeight)).setStaking
    { s.stores.staking with
      unbondingDelegations := setRecord UBDKey ubd s.stores.staking.unbondingDelegations }

/-- Accessor `SlashingKeeper.SetValidatorSigningInfo(ctx, addr, info)`. -/
def SetValidatorSigningInfo {C ρ : Type} (ctx : Context) (s : State C ρ) (addr : Bytes)
    (info : ValidatorSigningInfo) : State C ρ :=
  (s.log (.SetValidatorSigningInfo ctx.BlockHeight addr)).setSlashing
    (setRecord Prod.fst (addr, info) s.stores.slashing)

/-- Accessor `DistrKeeper.SetFeePool(ctx, feePool)`. -/
def SetFeePool {C ρ : Type} (ctx : Context) (s : State C ρ) (feePool : FeePool C) : State C ρ :=
  (s.log (.SetFeePool ctx.BlockHeight)).setDistr { s.stores.distr with FeePool := feePool }

/-! ## prepForZeroHeightGenesis, phase by phase -/

/-- Lines 60-68: parse every allow-list entry and record it in `allowedAddrsMap`.
`none` is the `log.Fatal` on the first entry that does not parse. -/
def buildAllowedAddrsMap {C ρ : Type} (K : Keepers C ρ) :
    List String → (String → Bool) → Option (String → Bool)
  | [], m => some m
  | addr :: rest, m =>
    match K.ValAddressFromBech32 addr with
    | none => none
    | some _ => buildAllowedAddrsMap K rest (fun k => if k = addr then true else m k)

/-- Lines 76-82: withdraw all validator commission. -/
def withdrawAllCommission {C ρ : Type} (K : Keepers C ρ) (ctx : Context) :
    List Validator → State C ρ → Outcome Unit (State C ρ)
  | [], s => .returned () s
  | val :: vals, s =>
    let s1 := s.log (.WithdrawValidatorCommission ctx.BlockHeight val.OperatorAddress)
    match K.WithdrawValidatorCommission ctx s.stores.staking s.stores.distr val.OperatorAddress with
    | none => .aborted .withdrawalFailure s1
    | some d => withdrawAllCommission K ctx vals (s1.setDistr d)

/-- Lines 86-91: withdraw all delegator rewards. -/
def withdrawAllRewards {C ρ : Type} (K : Keepers C ρ) (ctx : Context) :
    List Delegation → State C ρ → Outcome Unit (State C ρ)
  | [], s => .returned () s
  | delegation :: dels, s =>
    let s1 := s.log (.WithdrawDelegationRewards ctx.BlockHeight delegation.DelegatorAddress
      delegation.ValidatorAddress)
    match K.WithdrawDelegationRewards ctx s.stores.staking s.stores.distr
        delegation.DelegatorAddress delegation.ValidatorAddress with
    | none => .aborted .withdrawalFailure s1
    | some d => withdrawAllRewards K ctx dels (s1.setDistr d)

/-- Lines 93-97: clear validator slash events and historical rewards. -/
def clearDistributionHistory {C ρ : Type} (K : Keepers C ρ) (ctx : Context) (s : State C ρ) :
    State C ρ :=
  let s := (s.log (.DeleteAllValidatorSlashEvents ctx.BlockHeight)).setDistr
    (K.DeleteAllValidatorSlashEvents ctx s.stores.distr)
  (s.log (.DeleteAllValidatorHistoricalRewards ctx.BlockHeight)).setDistr
    (K.DeleteAllValidatorHistoricalRewards ctx s.stores.distr)

/-- Lines 104-113: donate each validator's outstanding reward coins to the
community pool and re-initialise the validator's distribution records. -/
def reinitValidators {C ρ : Type} [Add C] (K : Keepers C ρ) (ctx : Context) :
    List Validator → State C ρ → State C ρ
  | [], s => s
  | val :: vals, s =>
    let scraps := K.GetValidatorOutstandingRewardsCoins ctx s.stores.distr.rest val.OperatorAddress
    let feePool := s.stores.distr.FeePool
    let feePool := { feePool with CommunityPool := feePool.CommunityPool + scraps }
    let s := SetFeePool ctx s feePool
    let s := (s.log (.AfterValidatorCreated ctx.BlockHeight val.OperatorAddress)).setDistr
      (K.AfterValidatorCreated ctx s.stores.staking s.stores.distr val.OperatorAddress)
    reinitValidators K ctx vals s

/-- Lines 116-119: re-initialise all delegations. -/
def reinitDelegations {C ρ : Type} (K : Keepers C ρ) (ctx : Context) :
    List Delegation → State C ρ → State C ρ
  | [], s => s
  | del :: dels, s =>
    let s := (s.log (.BeforeDelegationCreated ctx.BlockHeight del.DelegatorAddress
      del.ValidatorAddress)).setDistr
      (K.BeforeDelegationCreated ctx s.stores.staking s.stores.distr del.DelegatorAddress
        del.ValidatorAddress)
    let s := (s.log (.AfterDelegationModified ctx.BlockHeight del.DelegatorAddress
      del.ValidatorAddress)).setDistr
      (K.AfterDelegationModified ctx s.stores.staking s.stores.distr del.DelegatorAddress
        del.ValidatorAddress)
    reinitDelegations K ctx dels s

/-- Lines 128-130: set the creation height of every entry to 0. -/
def resetRedelegationEntries (red : Redelegation) : Redelegation :=
  { red with Entries := red.Entries.map (fun e => { e with CreationHeight := 0 }) }

/-- Lines 137-139: set the creation height of every entry to 0. -/
def resetUnbondingEntries (ubd : UnbondingDelegation) : UnbondingDelegation :=
  { ubd with Entries := ubd.Entries.map (fun e => { e with CreationHeight := 0 }) }

/-- Lines 127-133: the callback run on every redelegation handed out by
`StakingKeeper.IterateRedelegations`. -/
def resetRedelegations {C ρ : Type} (ctx : Context) :
    List Redelegation → State C ρ → State C ρ
  | [], s => s
  | red :: reds, s => resetRedelegations ctx reds (SetRedelegation ctx s (resetRedelegationEntries red))

/-- Lines 136-142: the callback run on every unbonding delegation handed out by
`StakingKeeper.IterateUnbondingDelegations`. -/
def resetUnbondingDelegations {C ρ : Type} (ctx : Context) :
    List UnbondingDelegation → State C ρ → State C ρ
  | [], s => s
  | ubd :: ubds, s =>
    resetUnbondingDelegations ctx ubds (SetUnbondingDelegation ctx s (resetUnbondingEntries ubd))

/-- Lines 150-164: the loop over the reverse prefix iterator of the validator
store. `iter.Key()[1:]` is the address; a missing record panics. -/
def rebuildValidators {C ρ : Type} (K : Keepers C ρ) (ctx : Context) (applyAllowedAddrs : Bool)
    (allowedAddrsMap : String → Bool) : List Bytes → State C ρ → Outcome Unit (State C ρ)
  | [], s => .returned () s
  | key :: keys, s =>
    let addr := key.drop 1
    match GetValidator K s addr with
    | none => .aborted .validatorNotFound s
    | some validator =>
      let validator := { validator with UnbondingHeight := 0 }
      let validator :=
        if applyAllowedAddrs && !allowedAddrsMap (K.ValAddressString addr) then
          { validator with Jailed := true }
        else validator
      rebuildValidators K ctx applyAllowedAddrs allowedAddrsMap keys (SetValidator K ctx s validator)

/-- What the validator loop does to one record, visited under store key `key`. -/
def rebuildRecord {C ρ : Type} (K : Keepers C ρ) (applyAllowedAddrs : Bool)
    (allowedAddrsMap : String → Bool) (key : Bytes) (validator : Validator) : Validator :=
  { validator with
    UnbondingHeight := 0
    Jailed := validator.Jailed ||
      (applyAllowedAddrs && !allowedAddrsMap (K.ValAddressString (key.drop 1))) }

/-- Addresses in the order the validator loop of lines 150-164 visits them. -/
def rebuildOrder {C ρ : Type} (K : Keepers C ρ) (s : State C ρ) : List Bytes :=
  (KVStoreReversePrefixIterator s.stores.staking.validators K.ValidatorsKey).map
    (fun key => key.drop 1)

/-- Lines 178-185: the callback run on every record handed out by
`SlashingKeeper.IterateValidatorSigningInfos`. -/
def resetSigningInfos {C ρ : Type} (ctx : Context) :
    List (Bytes × ValidatorSigningInfo) → State C ρ → State C ρ
  | [], s => s
  | (addr, info) :: infos, s =>
    resetSigningInfos ctx infos (SetValidatorSigningInfo ctx s addr { info with StartHeight := 0 })

/-- Lines 73-97: the settlement pass: all withdrawals, then the two deletions.
The value returned is `dels`, the delegation list read at line 85. -/
def settleDistribution {C ρ : Type} (K : Keepers C ρ) (ctx : Context) (s : State C ρ) :
    Outcome (List Delegation) (State C ρ) :=
  (withdrawAllCommission K ctx (IterateValidators K s) s).andThen fun _ s =>
  let dels := GetAllDelegations s
  (withdrawAllRewards K ctx dels s).andThen fun _ s =>
  .returned dels (clearDistributionHistory K ctx s)

/-- Lines 99-122: the re-initialisation pass, run with the context height
overridden to 0 and followed by the restore of the saved height. -/
def reinitDistribution {C ρ : Type} [Add C] (K : Keepers C ρ) (ctx : Context)
    (dels : List Delegation) (s : State C ρ) : State C ρ :=
  let height := ctx.BlockHeight
  let ctx0 := ctx.WithBlockHeight 0
  let s := s.log (.WithBlockHeight 0)
  let s := reinitValidators K ctx0 (IterateValidators K s) s
  let s := reinitDelegations K ctx0 dels s
  s.log (.WithBlockHeight height)

/-- Lines 124-185: staking and slashing state. -/
def normalizeStaking {C ρ : Type} (K : Keepers C ρ) (ctx : Context) (applyAllowedAddrs : Bool)
    (allowedAddrsMap : String → Bool) (s : State C ρ) : Outcome Unit (State C ρ) :=
  let s := resetRedelegations ctx s.stores.staking.redelegations s
  let s := resetUnbondingDelegations ctx s.stores.staking.unbondingDelegations s
  let iter := KVStoreReversePrefixIterator s.stores.staking.validators K.ValidatorsKey
  (rebuildValidators K ctx applyAllowedAddrs allowedAddrsMap iter s).andThen fun _ s =>
  if K.IterCloseError then .returned () s
  else
    match K.ApplyAndReturnValidatorSetUpdates ctx s.stores with
    | none => .aborted .validatorSetUpdate (s.log (.ApplyAndReturnValidatorSetUpdates ctx.BlockHeight))
    | some st =>
      let s := { s.log (.ApplyAndReturnValidatorSetUpdates ctx.BlockHeight) with stores := st }
      .returned () (resetSigningInfos ctx s.stores.slashing s)

/-- Function `prepForZeroHeightGenesis` (lines 52-186). -/
def prepForZeroHeightGenesis {C ρ : Type} [Add C] (K : Keepers C ρ) (ctx : Context)
    (jailAllowedAddrs : List String) (s : State C ρ) : Outcome Unit (State C ρ) :=
  let applyAllowedAddrs := decide (jailAllowedAddrs.length > 0)
  match buildAllowedAddrsMap K jailAllowedAddrs (fun _ => false) with
  | none => .aborted .addressFormat s
  | some allowedAddrsMap =>
    if K.AssertInvariants ctx s.stores = false then .aborted .invariantViolation s
    else
      (settleDistribution K ctx s).andThen fun dels s =>
      normalizeStaking K ctx applyAllowedAddrs allowedAddrsMap (reinitDistribution K ctx dels s)

/-! ## ExportAppStateAndValidators -/

/-- Go `int64` wrap-around of a mathematical integer. -/
def wrapInt64 (x : Int) : Int := (x + 2 ^ 63) % 2 ^ 64 - 2 ^ 63

/-- Record `tmtypes.GenesisValidator`. -/
structure GenesisValidator where
  PubKey : Bytes
  Power : Int
deriving DecidableEq, Repr

/-- Record `servertypes.ExportedApp`; consensus parameters are kept encoded. -/
structure ExportedApp where
  AppState : Bytes
  Validators : List GenesisValidator
  Height : Int
  ConsensusParams : Option Bytes
deriving DecidableEq, Repr

/-- The Go zero value `servertypes.ExportedApp{}`. -/
def ExportedApp.empty : ExportedApp :=
  { AppState := [], Validators := [], Height := 0, ConsensusParams := none }

/-- The application object `App`: keepers, module manager and base app. -/
structure App (C ρ : Type) where
  keepers : Keepers C ρ
  /-- Value of `a.LastBlockHeight()`. -/
  LastBlockHeight : Int
  /-- Module manager export `a.mm.ExportGenesis(ctx, a.cdc)`. -/
  ExportGenesis : Context → Stores C ρ → List (String × Bytes)
  /-- Encoder `json.MarshalIndent`; `Except.error` is an encoding failure. -/
  MarshalIndent : List (String × Bytes) → Except String Bytes
  /-- Helper `staking.WriteValidators`. -/
  WriteValidators : Context → Stores C ρ → Except String (List GenesisValidator)
  /-- Accessor `a.BaseApp.GetConsensusParams`. -/
  GetConsensusParams : Context → Stores C ρ → Option Bytes

/-- Constructor `a.NewContext(isCheckTx, header)`: the context carries the header height. -/
def NewContext (isCheckTx : Bool) (header : Header) : Context :=
  { BlockHeight := header.Height, IsCheckTx := isCheckTx }

/-- Line 20: the context every read and every normalization step is run with. -/
def exportContext {C ρ : Type} (a : App C ρ) : Context :=
  NewContext true { Height := a.LastBlockHeight }

/-- Function `ExportAppStateAndValidators` (lines 17-46). The value returned is
the Go pair `(ExportedApp, error)`. -/
def ExportAppStateAndValidators {C ρ : Type} [Add C] (a : App C ρ) (forZeroHeight : Bool)
    (jailAllowedAddrs : List String) (s : State C ρ) :
    Outcome (ExportedApp × Option String) (State C ρ) :=
  let ctx := exportContext a
  let height := wrapInt64 (a.LastBlockHeight + 1)
  let height := if forZeroHeight then 0 else height
  let prep : Outcome Unit (State C ρ) :=
    if forZeroHeight then prepForZeroHeightGenesis a.keepers ctx jailAllowedAddrs s
    else .returned () s
  prep.andThen fun _ s =>
  let s := s.log (.ExportGenesis ctx.BlockHeight)
  let genState := a.ExportGenesis ctx s.stores
  match a.MarshalIndent genState with
  | .error err => .returned (ExportedApp.empty, some err) s
  | .ok appState =>
    let s := s.log (.WriteValidators ctx.BlockHeight)
    match a.WriteValidators ctx s.stores with
    | .error err => .returned (ExportedApp.empty, some err) s
    | .ok validators =>
      let s := s.log (.GetConsensusParams ctx.BlockHeight)
      .returned
        ({ AppState := appState, Validators := validators, Height := height,
           ConsensusParams := a.GetConsensusParams ctx s.stores }, none) s

/-! ## Properties of the external collaborators used as hypotheses -/

/-- The calls of the settlement pass on state `s`: one commission withdrawal per
validator, then one reward withdrawal per delegation, all at the height of `ctx`. -/
def settlementCalls {C ρ : Type} (K : Keepers C ρ) (ctx : Context) (s : State C ρ) : List Call :=
  (IterateValidators K s).map
      (fun val => Call.WithdrawValidatorCommission ctx.BlockHeight val.OperatorAddress) ++
    (GetAllDelegations s).map
      (fun d => Call.WithdrawDelegationRewards ctx.BlockHeight d.DelegatorAddress d.ValidatorAddress)

/-- State `t` extends the log of `s` by calls none of which is a withdrawal. -/
def ExtendsWithoutWithdrawal {C ρ : Type} (s t : State C ρ) : Prop :=
  ∃ rest : List Call, (∀ c ∈ rest, c.isWithdrawal = false) ∧ t.calls = s.calls ++ rest

/-- Every record of the validator store sits under the key of its own operator
address, and no key occurs twice. -/
def ValidatorStoreConsistent (b : Nat) (store : KVStore Validator) : Prop :=
  (store.map Prod.fst).Nodup ∧
    ∀ e ∈ store, hasKeyPrefix b e.1 = true → e.1 = GetValidatorKey b e.2.OperatorAddress

/-- The validator-set update leaves every validator record's jailed flag as it is. -/
def ApplyKeepsJailed {C ρ : Type} (K : Keepers C ρ) : Prop :=
  ∀ (ctx : Context) (st st' : Stores C ρ), K.ApplyAndReturnValidatorSetUpdates ctx st = some st' →
    ∀ key : Bytes, (KVStore.get key st'.staking.validators).map Validator.Jailed =
      (KVStore.get key st.staking.validators).map Validator.Jailed

/-- The validator-set update leaves redelegations and unbonding delegations as they are. -/
def ApplyKeepsUnbonding {C ρ : Type} (K : Keepers C ρ) : Prop :=
  ∀ (ctx : Context) (st st' : Stores C ρ), K.ApplyAndReturnValidatorSetUpdates ctx st = some st' →
    st'.staking.redelegations = st.staking.redelegations ∧
      st'.staking.unbondingDelegations = st.staking.unbondingDelegations

/-- The distribution hooks and the validator-set update leave the community pool
as it is, and re-initialising one validator leaves the outstanding rewards of
every other validator as they are. -/
def HooksKeepCommunityPool {C ρ : Type} (K : Keepers C ρ) : Prop :=
  (∀ ctx st d a, (K.AfterValidatorCreated ctx st d a).FeePool.CommunityPool =
      d.FeePool.CommunityPool) ∧
  (∀ ctx st d a b, b ≠ a →
      K.GetValidatorOutstandingRewardsCoins ctx (K.AfterValidatorCreated ctx st d a).rest b =
        K.GetValidatorOutstandingRewardsCoins ctx d.rest b) ∧
  (∀ ctx st d a b, (K.BeforeDelegationCreated ctx st d a b).FeePool.CommunityPool =
      d.FeePool.CommunityPool) ∧
  (∀ ctx st d a b, (K.AfterDelegationModified ctx st d a b).FeePool.CommunityPool =
      d.FeePool.CommunityPool) ∧
  (∀ ctx st st', K.ApplyAndReturnValidatorSetUpdates ctx st = some st' →
      st'.distr.FeePool.CommunityPool = st.distr.FeePool.CommunityPool)

/-- Corresponding redelegations agree in every field except the creation
heights of their entries, which are 0 in `after`. -/
def RedelegationsReset (before after : List Redelegation) : Prop :=
  List.Forall₂ (fun r r' =>
    r'.DelegatorAddress = r.DelegatorAddress ∧
    r'.ValidatorSrcAddress = r.ValidatorSrcAddress ∧
    r'.ValidatorDstAddress = r.ValidatorDstAddress ∧
    List.Forall₂ (fun e e' =>
      e'.CreationHeight = 0 ∧ e'.CompletionTime = e.CompletionTime ∧
      e'.InitialBalance = e.InitialBalance ∧ e'.SharesDst = e.SharesDst) r.Entries r'.Entries)
    before after

/-- Corresponding unbonding delegations agree in every field except the creation
heights of their entries, which are 0 in `after`. -/
def UnbondingDelegationsReset (before after : List UnbondingDelegation) : Prop :=
  List.Forall₂ (fun u u' =>
    u'.DelegatorAddress = u.DelegatorAddress ∧
    u'.ValidatorAddress = u.ValidatorAddress ∧
    List.Forall₂ (fun e e' =>
      e'.CreationHeight = 0 ∧ e'.CompletionTime = e.CompletionTime ∧
      e'.InitialBalance = e.InitialBalance ∧ e'.Balance = e.Balance) u.Entries u'.Entries)
    before after

/-! ## Concrete collaborators and states -/

namespace Sample

/-- A small keeper set: addresses `[1]`..`[4]` render as `"A"`..`"D"`; the
distribution store maps each validator to its outstanding reward coins, and
re-initialising a validator clears its entry. -/
def keepers : Keepers Nat (Bytes → Nat) where
  ValidatorsKey := 33
  ValAddressFromBech32 := fun str =>
    if str = "A" then some [1] else if str = "B" then some [2]
    else if str = "C" then some [3] else if str = "D" then some [4] else none
  ValAddressString := fun addr =>
    if addr = [1] then "A" else if addr = [2] then "B"
    else if addr = [3] then "C" else if addr = [4] then "D" else ""
  AssertInvariants := fun _ st => st.staking.validators.all (fun e => decide (0 < e.2.Tokens))
  WithdrawValidatorCommission := fun _ _ d _ => some d
  WithdrawDelegationRewards := fun _ _ d _ _ => some d
  DeleteAllValidatorSlashEvents := fun _ d => d
  DeleteAllValidatorHistoricalRewards := fun _ d => d
  GetValidatorOutstandingRewardsCoins := fun _ rest addr => rest addr
  AfterValidatorCreated := fun _ _ d addr =>
    { d with rest := fun a => if a = addr then 0 else d.rest a }
  BeforeDelegationCreated := fun _ _ d _ _ => d
  AfterDelegationModified := fun _ _ d _ _ => d
  ApplyAndReturnValidatorSetUpdates := fun _ st => some st
  IterCloseError := false

/-- The same keepers, with `iter.Close()` reporting an error. -/
def keepersCloseError : Keepers Nat (Bytes → Nat) :=
  { keepers with IterCloseError := true }

/-- The same keepers, with a parser that accepts each address in a second spelling
as well (`"a"`..`"d"`), as the bech32 decoder accepts an address written all in
upper case and all in lower case; the rendering is unchanged. -/
def keepersBothCases : Keepers Nat (Bytes → Nat) :=
  { keepers with
    ValAddressFromBech32 := fun str =>
      if str = "A" ∨ str = "a" then some [1] else if str = "B" ∨ str = "b" then some [2]
      else if str = "C" ∨ str = "c" then some [3] else if str = "D" ∨ str = "d" then some [4]
      else none }

/-- Validator record with operator `[n]`. -/
def validator (n : Nat) (jailed : Bool) (tokens : Nat) : Bytes × Validator :=
  ([33, n], { OperatorAddress := [n], Jailed := jailed, Tokens := tokens, UnbondingHeight := 12 })

/-- Four validators A, B, C, D; B and D start jailed. -/
def staking : Staking where
  validators := [validator 1 false 100, validator 2 true 50, validator 3 false 70,
    validator 4 true 10]
  delegations := [{ DelegatorAddress := [9], ValidatorAddress := [1], Shares := 5 }]
  redelegations :=
    [{ DelegatorAddress := [9], ValidatorSrcAddress := [1], ValidatorDstAddress := [2],
       Entries := [{ CreationHeight := 40, CompletionTime := 7, InitialBalance := 3, SharesDst := 3 },
                   { CreationHeight := 41, CompletionTime := 8, InitialBalance := 1, SharesDst := 1 }] }]
  unbondingDelegations :=
    [{ DelegatorAddress := [9], ValidatorAddress := [3],
       Entries := [{ CreationHeight := 39, CompletionTime := 6, InitialBalance := 2, Balance := 2 }] }]

/-- Outstanding reward coins: 3 for A, 4 for C, 0 otherwise. -/
def outstanding : Bytes → Nat := fun a => if a = [1] then 3 else if a = [3] then 4 else 0

/-- One signing-info record, with start height 5. -/
def signingInfo : ValidatorSigningInfo :=
  { StartHeight := 5, IndexOffset := 2, JailedUntil := 0, Tombstoned := false,
    MissedBlocksCounter := 1 }

/-- A state at which every invariant of `keepers` holds. -/
def state : State Nat (Bytes → Nat) :=
  { stores :=
      { staking := staking,
        distr := { FeePool := { CommunityPool := 1000 }, rest := outstanding },
        slashing := [([7], signingInfo)] },
    calls := [] }

/-- A state whose validator A has no tokens, which breaks the invariant of `keepers`. -/
def brokenState : State Nat (Bytes → Nat) :=
  state.setStaking { staking with validators := [validator 1 false 0] }

/-- Two validators: `[1]` with power 100 and `[2]` with power 50. -/
def twoValidators : State Nat (Bytes → Nat) :=
  state.setStaking { staking with validators := [validator 1 false 100, validator 2 false 50] }

/-- The context of a run at block height 42. -/
def ctx : Context := { BlockHeight := 42, IsCheckTx := true }

/-- An application whose genesis export records the height of the context it
is read with, and whose readers all succeed. -/
def app : App Nat (Bytes → Nat) where
  keepers := keepers
  LastBlockHeight := 42
  ExportGenesis := fun ctx _ => [("height", [ctx.BlockHeight.toNat])]
  MarshalIndent := fun g => .ok (g.map Prod.snd).flatten
  WriteValidators := fun _ st =>
    .ok (st.staking.validators.map (fun e => { PubKey := e.2.OperatorAddress, Power := e.2.Tokens }))
  GetConsensusParams := fun _ _ => some [1]

/-- The same application, with an encoder that fails. -/
def appEncodingFails : App Nat (Bytes → Nat) :=
  { app with MarshalIndent := fun _ => .error "unsupported value" }

end Sample

/-- Whether `MarshalIndent` fails on the genesis state exported from `st`. -/
def encodingFails {C ρ : Type} (a : App C ρ) (st : Stores C ρ) : Bool :=
  match a.MarshalIndent (a.ExportGenesis (exportContext a) st) with
  | .error _ => true
  | .ok _ => false

/-- The helper `staking.WriteValidators` returns a nil error on every context and
store: the error it names as a result is never assigned, the callback it runs
declares its own. -/
def WriteValidatorsSucceeds {C ρ : Type} (a : App C ρ) : Prop :=
  ∀ (ctx : Context) (st : Stores C ρ), ∃ validators, a.WriteValidators ctx st = .ok validators

/-- Whether `WriteValidators` fails on `st`. -/
def writeValidatorsFails {C ρ : Type} (a : App C ρ) (st : Stores C ρ) : Bool :=
  match a.WriteValidators (exportContext a) st with
  | .error _ => true
  | .ok _ => false

/-! ## Basic facts about states, logs and outcomes -/

@[simp] theorem State.log_stores {C ρ : Type} (s : State C ρ) (c : Call) :
    (s.log c).stores = s.stores := rfl

@[simp] theorem State.log_calls {C ρ : Type} (s : State C ρ) (c : Call) :
    (s.log c).calls = s.calls ++ [c] := rfl

@[simp] theorem State.setDistr_calls {C ρ : Type} (s : State C ρ) (d : DistrState C ρ) :
    (s.setDistr d).calls = s.calls := rfl

@[simp] theorem State.setDistr_staking {C ρ : Type} (s : State C ρ) (d : DistrState C ρ) :
    (s.setDistr d).stores.staking = s.stores.staking := rfl

@[simp] theorem State.setDistr_slashing {C ρ : Type} (s : State C ρ) (d : DistrState C ρ) :
    (s.setDistr d).stores.slashing = s.stores.slashing := rfl

@[simp] theorem State.setDistr_distr {C ρ : Type} (s : State C ρ) (d : DistrState C ρ) :
    (s.setDistr d).stores.distr = d := rfl

@[simp] theorem State.setStaking_calls {C ρ : Type} (s : State C ρ) (st : Staking) :
    (s.setStaking st).calls = s.calls := rfl

@[simp] theorem State.setStaking_staking {C ρ : Type} (s : State C ρ) (st : Staking) :
    (s.setStaking st).stores.staking = st := rfl

@[simp] theorem State.setStaking_slashing {C ρ : Type} (s : State C ρ) (st : Staking) :
    (s.setStaking st).stores.slashing = s.stores.slashing := rfl

@[simp] theorem State.setStaking_distr {C ρ : Type} (s : State C ρ) (st : Staking) :
    (s.setStaking st).stores.distr = s.stores.distr := rfl

@[simp] theorem State.setSlashing_calls {C ρ : Type} (s : State C ρ)
    (sl : List (Bytes × ValidatorSigningInfo)) : (s.setSlashing sl).calls = s.calls := rfl

@[simp] theorem State.setSlashing_staking {C ρ : Type} (s : State C ρ)
    (sl : List (Bytes × ValidatorSigningInfo)) :
    (s.setSlashing sl).stores.staking = s.stores.staking := rfl

@[simp] theorem State.setSlashing_slashing {C ρ : Type} (s : State C ρ)
    (sl : List (Bytes × ValidatorSigningInfo)) : (s.setSlashing sl).stores.slashing = sl := rfl

@[simp] theorem State.setSlashing_distr {C ρ : Type} (s : State C ρ)
    (sl : List (Bytes × ValidatorSigningInfo)) :
    (s.setSlashing sl).stores.distr = s.stores.distr := rfl

theorem ExtendsWithoutWithdrawal.refl {C ρ : Type} (s : State C ρ) :
    ExtendsWithoutWithdrawal s s :=
  ⟨[], by simp, by simp⟩

theorem ExtendsWithoutWithdrawal.trans {C ρ : Type} {s t u : State C ρ}
    (h₁ : ExtendsWithoutWithdrawal s t) (h₂ : ExtendsWithoutWithdrawal t u) :
    ExtendsWithoutWithdrawal s u := by
  obtain ⟨r₁, hr₁, e₁⟩ := h₁
  obtain ⟨r₂, hr₂, e₂⟩ := h₂
  refine ⟨r₁ ++ r₂, ?_, by rw [e₂, e₁, List.append_assoc]⟩
  intro c hc
  rcases List.mem_append.mp hc with h | h
  · exact hr₁ c h
  · exact hr₂ c h

/-- A state that differs from `s` by one logged call that is not a withdrawal. -/
theorem ExtendsWithoutWithdrawal.of_calls {C ρ : Type} {s t : State C ρ} (c : Call)
    (hc : c.isWithdrawal = false) (h : t.calls = s.calls ++ [c]) :
    ExtendsWithoutWithdrawal s t :=
  ⟨[c], by simpa using hc, h⟩

theorem ExtendsWithoutWithdrawal.of_eq {C ρ : Type} {s t : State C ρ} (h : t.calls = s.calls) :
    ExtendsWithoutWithdrawal s t :=
  ⟨[], by simp, by simp [h]⟩

/-! ## The settlement pass -/

/-- The commission loop leaves the staking and slashing stores alone; it logs one
withdrawal per validator, or stops with a withdrawal failure after logging the
withdrawals of an initial segment. -/
theorem withdrawAllCommission_spec {C ρ : Type} (K : Keepers C ρ) (ctx : Context)
    (vals : List Validator) (s : State C ρ) :
    (withdrawAllCommission K ctx vals s).state.stores.staking = s.stores.staking ∧
    (withdrawAllCommission K ctx vals s).state.stores.slashing = s.stores.slashing ∧
    ((∃ t, withdrawAllCommission K ctx vals s = .returned () t ∧
        t.calls = s.calls ++ vals.map
          (fun val => Call.WithdrawValidatorCommission ctx.BlockHeight val.OperatorAddress)) ∨
     (∃ t pre suf, withdrawAllCommission K ctx vals s = .aborted .withdrawalFailure t ∧
        vals.map (fun val => Call.WithdrawValidatorCommission ctx.BlockHeight val.OperatorAddress)
          = pre ++ suf ∧ t.calls = s.calls ++ pre)) := by
  induction vals generalizing s with
  | nil => exact ⟨rfl, rfl, Or.inl ⟨s, rfl, by simp⟩⟩
  | cons val vals ih =>
    simp only [withdrawAllCommission]
    cases hw : K.WithdrawValidatorCommission ctx s.stores.staking s.stores.distr
        val.OperatorAddress with
    | none =>
      refine ⟨rfl, rfl, Or.inr ⟨_, [Call.WithdrawValidatorCommission ctx.BlockHeight
        val.OperatorAddress], vals.map (fun val => Call.WithdrawValidatorCommission
          ctx.BlockHeight val.OperatorAddress), rfl, by simp, by simp⟩⟩
    | some d =>
      obtain ⟨h₁, h₂, h₃⟩ := ih ((s.log (Call.WithdrawValidatorCommission ctx.BlockHeight
        val.OperatorAddress)).setDistr d)
      refine ⟨by simpa using h₁, by simpa using h₂, ?_⟩
      rcases h₃ with ⟨t, ht, hc⟩ | ⟨t, pre, suf, ht, hsplit, hc⟩
      · exact Or.inl ⟨t, ht, by simpa using hc⟩
      · refine Or.inr ⟨t, Call.WithdrawValidatorCommission ctx.BlockHeight val.OperatorAddress
          :: pre, suf, ht, by simp [hsplit], by simpa using hc⟩

/-- The reward loop leaves the staking and slashing stores alone; it logs one
withdrawal per delegation, or stops with a withdrawal failure after logging the
withdrawals of an initial segment. -/
theorem withdrawAllRewards_spec {C ρ : Type} (K : Keepers C ρ) (ctx : Context)
    (dels : List Delegation) (s : State C ρ) :
    (withdrawAllRewards K ctx dels s).state.stores.staking = s.stores.staking ∧
    (withdrawAllRewards K ctx dels s).state.stores.slashing = s.stores.slashing ∧
    ((∃ t, withdrawAllRewards K ctx dels s = .returned () t ∧
        t.calls = s.calls ++ dels.map
          (fun d => Call.WithdrawDelegationRewards ctx.BlockHeight d.DelegatorAddress
            d.ValidatorAddress)) ∨
     (∃ t pre suf, withdrawAllRewards K ctx dels s = .aborted .withdrawalFailure t ∧
        dels.map (fun d => Call.WithdrawDelegationRewards ctx.BlockHeight d.DelegatorAddress
            d.ValidatorAddress) = pre ++ suf ∧ t.calls = s.calls ++ pre)) := by
  induction dels generalizing s with
  | nil => exact ⟨rfl, rfl, Or.inl ⟨s, rfl, by simp⟩⟩
  | cons del dels ih =>
    simp only [withdrawAllRewards]
    cases hw : K.WithdrawDelegationRewards ctx s.stores.staking s.stores.distr
        del.DelegatorAddress del.ValidatorAddress with
    | none =>
      refine ⟨rfl, rfl, Or.inr ⟨_, [Call.WithdrawDelegationRewards ctx.BlockHeight
        del.DelegatorAddress del.ValidatorAddress], dels.map (fun d =>
          Call.WithdrawDelegationRewards ctx.BlockHeight d.DelegatorAddress d.ValidatorAddress),
        rfl, by simp, by simp⟩⟩
    | some d =>
      obtain ⟨h₁, h₂, h₃⟩ := ih ((s.log (Call.WithdrawDelegationRewards ctx.BlockHeight
        del.DelegatorAddress del.ValidatorAddress)).setDistr d)
      refine ⟨by simpa using h₁, by simpa using h₂, ?_⟩
      rcases h₃ with ⟨t, ht, hc⟩ | ⟨t, pre, suf, ht, hsplit, hc⟩
      · exact Or.inl ⟨t, ht, by simpa using hc⟩
      · refine Or.inr ⟨t, Call.WithdrawDelegationRewards ctx.BlockHeight del.DelegatorAddress
          del.ValidatorAddress :: pre, suf, ht, by simp [hsplit], by simpa using hc⟩

/-- The settlement pass leaves the staking and slashing stores alone. When it
returns, the value is the delegation list of the entry state and the log has
grown by all withdrawals followed by the two deletions; when it aborts, the
log has grown by an initial segment of the withdrawals only. -/
theorem settleDistribution_spec {C ρ : Type} (K : Keepers C ρ) (ctx : Context) (s : State C ρ) :
    (settleDistribution K ctx s).state.stores.staking = s.stores.staking ∧
    (settleDistribution K ctx s).state.stores.slashing = s.stores.slashing ∧
    ((∃ t, settleDistribution K ctx s = .returned (GetAllDelegations s) t ∧
        t.calls = s.calls ++ settlementCalls K ctx s ++
          [Call.DeleteAllValidatorSlashEvents ctx.BlockHeight,
           Call.DeleteAllValidatorHistoricalRewards ctx.BlockHeight]) ∨
     (∃ t pre suf, settleDistribution K ctx s = .aborted .withdrawalFailure t ∧
        settlementCalls K ctx s = pre ++ suf ∧ t.calls = s.calls ++ pre)) := by
  unfold settleDistribution
  obtain ⟨c₁, c₂, c₃⟩ := withdrawAllCommission_spec K ctx (IterateValidators K s) s
  rcases c₃ with ⟨t, ht, hc⟩ | ⟨t, pre, suf, ht, hsplit, hc⟩
  · rw [ht] at c₁ c₂
    simp only [Outcome.state] at c₁ c₂
    rw [ht]
    simp only [Outcome.andThen]
    have hd : GetAllDelegations t = GetAllDelegations s := by simp [GetAllDelegations, c₁]
    obtain ⟨r₁, r₂, r₃⟩ := withdrawAllRewards_spec K ctx (GetAllDelegations t) t
    rcases r₃ with ⟨u, hu, hcu⟩ | ⟨u, pre, suf, hu, hsplit, hcu⟩
    · rw [hu] at r₁ r₂
      simp only [Outcome.state] at r₁ r₂
      rw [hu]
      simp only [Outcome.andThen, Outcome.state]
      refine ⟨?_, ?_, Or.inl ⟨_, by rw [hd], ?_⟩⟩
      · simp [clearDistributionHistory, r₁, c₁]
      · simp [clearDistributionHistory, r₂, c₂]
      · simp [clearDistributionHistory, hcu, hc, settlementCalls, hd]
    · rw [hu] at r₁ r₂
      simp only [Outcome.state] at r₁ r₂
      rw [hu]
      simp only [Outcome.andThen, Outcome.state]
      refine ⟨by rw [r₁, c₁], by rw [r₂, c₂], Or.inr ⟨u, (IterateValidators K s).map
        (fun val => Call.WithdrawValidatorCommission ctx.BlockHeight val.OperatorAddress) ++ pre,
        suf, rfl, ?_, ?_⟩⟩
      · simp only [settlementCalls, List.append_assoc]
        rw [← hsplit, hd]
      · rw [hcu, hc, List.append_assoc]
  · rw [ht] at c₁ c₂
    simp only [Outcome.state] at c₁ c₂
    rw [ht]
    simp only [Outcome.andThen, Outcome.state]
    refine ⟨c₁, c₂, Or.inr ⟨t, pre, suf ++ (GetAllDelegations s).map
      (fun d => Call.WithdrawDelegationRewards ctx.BlockHeight d.DelegatorAddress
        d.ValidatorAddress), rfl, ?_, hc⟩⟩
    simp only [settlementCalls]
    rw [hsplit, List.append_assoc]

/-! ## Record tables -/

/-- Writing a record whose key first occurs at a known position overwrites that position. -/
theorem setRecord_at {α κ : Type} [DecidableEq κ] (key : α → κ) (r y : α) (pre post : List α)
    (hpre : ∀ x ∈ pre, key x ≠ key r) (hy : key y = key r) :
    setRecord key r (pre ++ y :: post) = pre ++ r :: post := by
  induction pre with
  | nil => simp [setRecord, hy]
  | cons x pre ih =>
    have hx : key x ≠ key r := hpre x (List.mem_cons_self _ _)
    have := ih (fun z hz => hpre z (List.mem_cons_of_mem _ hz))
    simp [setRecord, hx, this]

/-- Rewriting the records of a table one by one, each under its own unchanged key,
rewrites the table pointwise. -/
theorem foldl_setRecord_aux {α κ : Type} [DecidableEq κ] (key : α → κ) (f : α → α)
    (hf : ∀ x, key (f x) = key x) (todo done : List α)
    (hnodup : ((done ++ todo).map key).Nodup) :
    todo.foldl (fun acc r => setRecord key (f r) acc) (done.map f ++ todo) =
      (done ++ todo).map f := by
  induction todo generalizing done with
  | nil => simp
  | cons r todo ih =>
    have hpre : ∀ x ∈ done.map f, key x ≠ key (f r) := by
      intro x hx hk
      obtain ⟨y, hy, rfl⟩ := List.mem_map.mp hx
      rw [hf, hf] at hk
      simp only [List.map_append, List.map_cons] at hnodup
      have := (List.nodup_append.mp hnodup).2.2
      exact this (List.mem_map_of_mem key hy) (by rw [hk]; exact List.mem_cons_self _ _)
    have hstep : setRecord key (f r) (done.map f ++ r :: todo) = done.map f ++ f r :: todo :=
      setRecord_at key (f r) r _ _ hpre (hf r).symm
    have hnodup2 : (((done ++ [r]) ++ todo).map key).Nodup := by simpa using hnodup
    have := ih (done ++ [r]) hnodup2
    simp only [List.foldl_cons, hstep]
    simpa using this

theorem foldl_setRecord {α κ : Type} [DecidableEq κ] (key : α → κ) (f : α → α)
    (hf : ∀ x, key (f x) = key x) (l : List α) (hnodup : (l.map key).Nodup) :
    l.foldl (fun acc r => setRecord key (f r) acc) l = l.map f := by
  simpa using foldl_setRecord_aux key f hf l [] (by simpa using hnodup)

/-! ## The re-initialisation pass -/

theorem SetFeePool_frame {C ρ : Type} (ctx : Context) (s : State C ρ) (p : FeePool C) :
    (SetFeePool ctx s p).stores.staking = s.stores.staking ∧
    (SetFeePool ctx s p).stores.slashing = s.stores.slashing ∧
    (SetFeePool ctx s p).calls = s.calls ++ [Call.SetFeePool ctx.BlockHeight] :=
  ⟨rfl, rfl, rfl⟩

theorem reinitValidators_frame {C ρ : Type} [Add C] (K : Keepers C ρ) (ctx : Context)
    (vals : List Validator) (s : State C ρ) :
    (reinitValidators K ctx vals s).stores.staking = s.stores.staking ∧
    (reinitValidators K ctx vals s).stores.slashing = s.stores.slashing ∧
    ExtendsWithoutWithdrawal s (reinitValidators K ctx vals s) := by
  induction vals generalizing s with
  | nil => exact ⟨rfl, rfl, ExtendsWithoutWithdrawal.refl s⟩
  | cons val vals ih =>
    simp only [reinitValidators]
    obtain ⟨h₁, h₂, h₃⟩ := ih (((SetFeePool ctx s
      { s.stores.distr.FeePool with CommunityPool := s.stores.distr.FeePool.CommunityPool +
          K.GetValidatorOutstandingRewardsCoins ctx s.stores.distr.rest val.OperatorAddress }).log
        (Call.AfterValidatorCreated ctx.BlockHeight val.OperatorAddress)).setDistr
      (K.AfterValidatorCreated ctx
        (SetFeePool ctx s { s.stores.distr.FeePool with
          CommunityPool := s.stores.distr.FeePool.CommunityPool +
            K.GetValidatorOutstandingRewardsCoins ctx s.stores.distr.rest
              val.OperatorAddress }).stores.staking
        (SetFeePool ctx s { s.stores.distr.FeePool with
          CommunityPool := s.stores.distr.FeePool.CommunityPool +
            K.GetValidatorOutstandingRewardsCoins ctx s.stores.distr.rest
              val.OperatorAddress }).stores.distr val.OperatorAddress))
    refine ⟨h₁, h₂, ExtendsWithoutWithdrawal.trans ?_ h₃⟩
    exact ⟨[Call.SetFeePool ctx.BlockHeight,
      Call.AfterValidatorCreated ctx.BlockHeight val.OperatorAddress],
      by simp [Call.isWithdrawal], by simp [SetFeePool]⟩

theorem reinitDelegations_frame {C ρ : Type} (K : Keepers C ρ) (ctx : Context)
    (dels : List Delegation) (s : State C ρ) :
    (reinitDelegations K ctx dels s).stores.staking = s.stores.staking ∧
    (reinitDelegations K ctx dels s).stores.slashing = s.stores.slashing ∧
    ExtendsWithoutWithdrawal s (reinitDelegations K ctx dels s) := by
  induction dels generalizing s with
  | nil => exact ⟨rfl, rfl, ExtendsWithoutWithdrawal.refl s⟩
  | cons del dels ih =>
    simp only [reinitDelegations]
    generalize hs : (((s.log (Call.BeforeDelegationCreated ctx.BlockHeight del.DelegatorAddress
      del.ValidatorAddress)).setDistr _).log _).setDistr _ = s₂
    obtain ⟨h₁, h₂, h₃⟩ := ih s₂
    have e₁ : s₂.stores.staking = s.stores.staking := by rw [← hs]; rfl
    have e₂ : s₂.stores.slashing = s.stores.slashing := by rw [← hs]; rfl
    have e₃ : s₂.calls = s.calls ++ [Call.BeforeDelegationCreated ctx.BlockHeight
        del.DelegatorAddress del.ValidatorAddress,
        Call.AfterDelegationModified ctx.BlockHeight del.DelegatorAddress
          del.ValidatorAddress] := by
      rw [← hs]; simp
    refine ⟨h₁.trans e₁, h₂.trans e₂, ExtendsWithoutWithdrawal.trans ?_ h₃⟩
    exact ⟨_, by simp [Call.isWithdrawal], e₃⟩

/-- The re-initialisation pass leaves the staking and slashing stores alone and
logs the height override to 0 followed by calls that are not withdrawals. -/
theorem reinitDistribution_frame {C ρ : Type} [Add C] (K : Keepers C ρ) (ctx : Context)
    (dels : List Delegation) (s : State C ρ) :
    (reinitDistribution K ctx dels s).stores.staking = s.stores.staking ∧
    (reinitDistribution K ctx dels s).stores.slashing = s.stores.slashing ∧
    ExtendsWithoutWithdrawal (s.log (Call.WithBlockHeight 0)) (reinitDistribution K ctx dels s) := by
  unfold reinitDistribution
  simp only
  obtain ⟨a₁, a₂, a₃⟩ := reinitValidators_frame K (ctx.WithBlockHeight 0)
    (IterateValidators K (s.log (Call.WithBlockHeight 0))) (s.log (Call.WithBlockHeight 0))
  obtain ⟨b₁, b₂, b₃⟩ := reinitDelegations_frame K (ctx.WithBlockHeight 0) dels
    (reinitValidators K (ctx.WithBlockHeight 0)
      (IterateValidators K (s.log (Call.WithBlockHeight 0))) (s.log (Call.WithBlockHeight 0)))
  refine ⟨?_, ?_, ?_⟩
  · simp [b₁, a₁]
  · simp [b₂, a₂]
  · exact (a₃.trans b₃).trans
      (ExtendsWithoutWithdrawal.of_calls (Call.WithBlockHeight ctx.BlockHeight) rfl rfl)

/-! ## Redelegations, unbonding delegations and signing infos -/

theorem resetRedelegations_spec {C ρ : Type} (ctx : Context) (reds : List Redelegation)
    (s : State C ρ) :
    (resetRedelegations ctx reds s).stores.distr = s.stores.distr ∧
    (resetRedelegations ctx reds s).stores.slashing = s.stores.slashing ∧
    (resetRedelegations ctx reds s).stores.staking.validators = s.stores.staking.validators ∧
    (resetRedelegations ctx reds s).stores.staking.delegations = s.stores.staking.delegations ∧
    (resetRedelegations ctx reds s).stores.staking.unbondingDelegations =
      s.stores.staking.unbondingDelegations ∧
    (resetRedelegations ctx reds s).stores.staking.redelegations =
      reds.foldl (fun acc r => setRecord REDKey (resetRedelegationEntries r) acc)
        s.stores.staking.redelegations ∧
    ExtendsWithoutWithdrawal s (resetRedelegations ctx reds s) := by
  induction reds generalizing s with
  | nil => exact ⟨rfl, rfl, rfl, rfl, rfl, rfl, ExtendsWithoutWithdrawal.refl s⟩
  | cons red reds ih =>
    simp only [resetRedelegations, List.foldl_cons]
    obtain ⟨h₁, h₂, h₃, h₄, h₅, h₆, h₇⟩ := ih (SetRedelegation ctx s (resetRedelegationEntries red))
    exact ⟨h₁, h₂, h₃, h₄, h₅, h₆, ExtendsWithoutWithdrawal.trans
      (ExtendsWithoutWithdrawal.of_calls (Call.SetRedelegation ctx.BlockHeight) rfl rfl) h₇⟩

theorem resetUnbondingDelegations_spec {C ρ : Type} (ctx : Context)
    (ubds : List UnbondingDelegation) (s : State C ρ) :
    (resetUnbondingDelegations ctx ubds s).stores.distr = s.stores.distr ∧
    (resetUnbondingDelegations ctx ubds s).stores.slashing = s.stores.slashing ∧
    (resetUnbondingDelegations ctx ubds s).stores.staking.validators =
      s.stores.staking.validators ∧
    (resetUnbondingDelegations ctx ubds s).stores.staking.delegations =
      s.stores.staking.delegations ∧
    (resetUnbondingDelegations ctx ubds s).stores.staking.redelegations =
      s.stores.staking.redelegations ∧
    (resetUnbondingDelegations ctx ubds s).stores.staking.unbondingDelegations =
      ubds.foldl (fun acc u => setRecord UBDKey (resetUnbondingEntries u) acc)
        s.stores.staking.unbondingDelegations ∧
    ExtendsWithoutWithdrawal s (resetUnbondingDelegations ctx ubds s) := by
  induction ubds generalizing s with
  | nil => exact ⟨rfl, rfl, rfl, rfl, rfl, rfl, ExtendsWithoutWithdrawal.refl s⟩
  | cons ubd ubds ih =>
    simp only [resetUnbondingDelegations, List.foldl_cons]
    obtain ⟨h₁, h₂, h₃, h₄, h₅, h₆, h₇⟩ :=
      ih (SetUnbondingDelegation ctx s (resetUnbondingEntries ubd))
    exact ⟨h₁, h₂, h₃, h₄, h₅, h₆, ExtendsWithoutWithdrawal.trans
      (ExtendsWithoutWithdrawal.of_calls (Call.SetUnbondingDelegation ctx.BlockHeight) rfl rfl) h₇⟩

theorem resetSigningInfos_spec {C ρ : Type} (ctx : Context)
    (infos : List (Bytes × ValidatorSigningInfo)) (s : State C ρ) :
    (resetSigningInfos ctx infos s).stores.distr = s.stores.distr ∧
    (resetSigningInfos ctx infos s).stores.staking = s.stores.staking ∧
    (resetSigningInfos ctx infos s).stores.slashing =
      infos.foldl (fun acc r => setRecord Prod.fst (r.1, { r.2 with StartHeight := 0 }) acc)
        s.stores.slashing ∧
    ExtendsWithoutWithdrawal s (resetSigningInfos ctx infos s) := by
  induction infos generalizing s with
  | nil => exact ⟨rfl, rfl, rfl, ExtendsWithoutWithdrawal.refl s⟩
  | cons r infos ih =>
    obtain ⟨addr, info⟩ := r
    simp only [resetSigningInfos, List.foldl_cons]
    obtain ⟨h₁, h₂, h₃, h₄⟩ :=
      ih (SetValidatorSigningInfo ctx s addr { info with StartHeight := 0 })
    exact ⟨h₁, h₂, h₃, ExtendsWithoutWithdrawal.trans
      (ExtendsWithoutWithdrawal.of_calls (Call.SetValidatorSigningInfo ctx.BlockHeight addr)
        rfl rfl) h₄⟩

theorem resetRedelegationEntries_key (r : Redelegation) :
    REDKey (resetRedelegationEntries r) = REDKey r := rfl

theorem resetUnbondingEntries_key (u : UnbondingDelegation) :
    UBDKey (resetUnbondingEntries u) = UBDKey u := rfl

theorem redelegationsReset_map (l : List Redelegation) :
    RedelegationsReset l (l.map resetRedelegationEntries) := by
  unfold RedelegationsReset
  induction l with
  | nil => exact List.Forall₂.nil
  | cons r l ih =>
    refine List.Forall₂.cons ⟨rfl, rfl, rfl, ?_⟩ ih
    simp only [resetRedelegationEntries]
    induction r.Entries with
    | nil => exact List.Forall₂.nil
    | cons e es ihe => exact List.Forall₂.cons ⟨rfl, rfl, rfl, rfl⟩ ihe

theorem unbondingDelegationsReset_map (l : List UnbondingDelegation) :
    UnbondingDelegationsReset l (l.map resetUnbondingEntries) := by
  unfold UnbondingDelegationsReset
  induction l with
  | nil => exact List.Forall₂.nil
  | cons u l ih =>
    refine List.Forall₂.cons ⟨rfl, rfl, ?_⟩ ih
    simp only [resetUnbondingEntries]
    induction u.Entries with
    | nil => exact List.Forall₂.nil
    | cons e es ihe => exact List.Forall₂.cons ⟨rfl, rfl, rfl, rfl⟩ ihe

/-! ## The validator store -/

theorem KVStore.get_set {ν : Type} (key key' : Bytes) (value : ν) (store : KVStore ν) :
    KVStore.get key' (KVStore.set key value store) =
      if key' = key then some value else KVStore.get key' store := by
  induction store with
  | nil =>
    by_cases h : key' = key
    · simp [KVStore.set, KVStore.get, h]
    · simp [KVStore.set, KVStore.get, h, Ne.symm h]
  | cons e store ih =>
    obtain ⟨k, v⟩ := e
    by_cases hk : k = key
    · subst hk
      by_cases h : key' = k
      · simp [KVStore.set, KVStore.get, h]
      · simp [KVStore.set, KVStore.get, h, Ne.symm h]
    · by_cases hlt : bytesLt key k = true
      · by_cases h : key' = key
        · simp [KVStore.set, KVStore.get, hk, hlt, h]
        · simp [KVStore.set, KVStore.get, hk, hlt, h, Ne.symm h]
      · by_cases h : key' = key
        · subst h
          simp [KVStore.set, KVStore.get, hk, hlt, ih]
        · simp [KVStore.set, KVStore.get, hk, hlt, ih, h]

theorem KVStore.get_of_mem {ν : Type} (store : KVStore ν) (hnodup : (store.map Prod.fst).Nodup)
    (key : Bytes) (value : ν) (hmem : (key, value) ∈ store) :
    KVStore.get key store = some value := by
  induction store with
  | nil => cases hmem
  | cons e store ih =>
    obtain ⟨k, v⟩ := e
    simp only [List.map_cons, List.nodup_cons] at hnodup
    rcases List.mem_cons.mp hmem with h | h
    · cases h
      simp [KVStore.get]
    · have hne : k ≠ key := by
        intro hk
        subst hk
        exact hnodup.1 (List.mem_map_of_mem Prod.fst h)
      simp [KVStore.get, hne, ih hnodup.2 h]

theorem KVStore.mem_of_get {ν : Type} (store : KVStore ν) (key : Bytes) (value : ν)
    (hget : KVStore.get key store = some value) : (key, value) ∈ store := by
  induction store with
  | nil => simp [KVStore.get] at hget
  | cons e store ih =>
    obtain ⟨k, v⟩ := e
    by_cases hk : k = key
    · subst hk
      simp [KVStore.get] at hget
      simp [hget]
    · simp only [KVStore.get, hk, if_false] at hget
      exact List.mem_cons_of_mem _ (ih hget)

theorem rebuildValidators_calls {C ρ : Type} (K : Keepers C ρ) (ctx : Context)
    (applyAllowedAddrs : Bool) (allowedAddrsMap : String → Bool) (keys : List Bytes)
    (s : State C ρ) :
    ExtendsWithoutWithdrawal s
      (rebuildValidators K ctx applyAllowedAddrs allowedAddrsMap keys s).state ∧
    ∀ why t, rebuildValidators K ctx applyAllowedAddrs allowedAddrsMap keys s = .aborted why t →
      why = .validatorNotFound := by
  induction keys generalizing s with
  | nil =>
    refine ⟨ExtendsWithoutWithdrawal.refl s, ?_⟩
    intro why t h
    simp [rebuildValidators] at h
  | cons key keys ih =>
    simp only [rebuildValidators]
    cases hg : GetValidator K s (key.drop 1) with
    | none =>
      refine ⟨ExtendsWithoutWithdrawal.refl s, ?_⟩
      intro why t h
      simp only [Outcome.aborted.injEq] at h
      exact h.1.symm
    | some v =>
      simp only
      generalize hv : (if (applyAllowedAddrs && !allowedAddrsMap (K.ValAddressString
        (key.drop 1))) = true then _ else _ : Validator) = v'
      obtain ⟨h₁, h₂⟩ := ih (SetValidator K ctx s v')
      exact ⟨ExtendsWithoutWithdrawal.trans (ExtendsWithoutWithdrawal.of_calls
        (Call.SetValidator ctx.BlockHeight v'.OperatorAddress) rfl rfl) h₁, h₂⟩

/-- On a consistent store the validator loop returns, and it rewrites exactly the
visited records, each by `rebuildRecord`. -/
theorem rebuildValidators_spec {C ρ : Type} (K : Keepers C ρ) (ctx : Context)
    (applyAllowedAddrs : Bool) (allowedAddrsMap : String → Bool) (keys : List Bytes)
    (s : State C ρ) (hnodup : keys.Nodup)
    (hkeys : ∀ k ∈ keys, ∃ v, KVStore.get k s.stores.staking.validators = some v ∧
      k = GetValidatorKey K.ValidatorsKey v.OperatorAddress) :
    ∃ t, rebuildValidators K ctx applyAllowedAddrs allowedAddrsMap keys s = .returned () t ∧
      (∀ k, KVStore.get k t.stores.staking.validators =
        if k ∈ keys then (KVStore.get k s.stores.staking.validators).map
          (rebuildRecord K applyAllowedAddrs allowedAddrsMap k)
        else KVStore.get k s.stores.staking.validators) ∧
      t.stores.distr = s.stores.distr ∧
      t.stores.slashing = s.stores.slashing ∧
      t.stores.staking.delegations = s.stores.staking.delegations ∧
      t.stores.staking.redelegations = s.stores.staking.redelegations ∧
      t.stores.staking.unbondingDelegations = s.stores.staking.unbondingDelegations := by
  induction keys generalizing s with
  | nil => exact ⟨s, rfl, by simp, rfl, rfl, rfl, rfl, rfl⟩
  | cons key keys ih =>
    obtain ⟨v, hget, hkey⟩ := hkeys key (List.mem_cons_self _ _)
    have hnot : key ∉ keys := (List.nodup_cons.mp hnodup).1
    have haddr : key.drop 1 = v.OperatorAddress := by rw [hkey]; rfl
    have hG : GetValidator K s (key.drop 1) = some v := by
      unfold GetValidator
      rw [haddr, ← hkey]
      exact hget
    simp only [rebuildValidators, hG]
    have hv : (if (applyAllowedAddrs && !allowedAddrsMap (K.ValAddressString
        (key.drop 1))) = true then
          { ({ v with UnbondingHeight := 0 } : Validator) with Jailed := true }
        else { v with UnbondingHeight := 0 }) =
        rebuildRecord K applyAllowedAddrs allowedAddrsMap key v := by
      unfold rebuildRecord
      by_cases hc : (applyAllowedAddrs && !allowedAddrsMap (K.ValAddressString
        (key.drop 1))) = true
      · rw [if_pos hc, hc]
        simp
      · have hc' : (applyAllowedAddrs && !allowedAddrsMap (K.ValAddressString
          (key.drop 1))) = false := by
          cases h : (applyAllowedAddrs && !allowedAddrsMap (K.ValAddressString (key.drop 1)))
          · rfl
          · exact absurd h hc
        rw [if_neg hc, hc']
        simp
    rw [hv]
    have hop : (rebuildRecord K applyAllowedAddrs allowedAddrsMap key v).OperatorAddress =
        v.OperatorAddress := rfl
    have hstore : (SetValidator K ctx s
        (rebuildRecord K applyAllowedAddrs allowedAddrsMap key v)).stores.staking.validators =
        KVStore.set key (rebuildRecord K applyAllowedAddrs allowedAddrsMap key v)
          s.stores.staking.validators := by
      simp only [SetValidator, State.setStaking_staking, hop]
      rw [← hkey]
    have hkeys' : ∀ k ∈ keys, ∃ w, KVStore.get k (SetValidator K ctx s
        (rebuildRecord K applyAllowedAddrs allowedAddrsMap key v)).stores.staking.validators =
          some w ∧ k = GetValidatorKey K.ValidatorsKey w.OperatorAddress := by
      intro k hk
      obtain ⟨w, hw, hkw⟩ := hkeys k (List.mem_cons_of_mem _ hk)
      have hne : k ≠ key := fun h => hnot (h ▸ hk)
      exact ⟨w, by rw [hstore, KVStore.get_set, if_neg hne]; exact hw, hkw⟩
    obtain ⟨t, ht, hget', h₁, h₂, h₃, h₄, h₅⟩ := ih (SetValidator K ctx s
      (rebuildRecord K applyAllowedAddrs allowedAddrsMap key v)) (List.nodup_cons.mp hnodup).2
      hkeys'
    refine ⟨t, ht, ?_, h₁, h₂, h₃, h₄, h₅⟩
    intro k
    rw [hget' k, hstore, KVStore.get_set]
    by_cases hk : k = key
    · subst hk
      simp [hnot, hget]
    · simp [hk]

theorem rebuildValidators_frame {C ρ : Type} (K : Keepers C ρ) (ctx : Context)
    (applyAllowedAddrs : Bool) (allowedAddrsMap : String → Bool) (keys : List Bytes)
    (s : State C ρ) :
    (rebuildValidators K ctx applyAllowedAddrs allowedAddrsMap keys s).state.stores.distr =
      s.stores.distr ∧
    (rebuildValidators K ctx applyAllowedAddrs allowedAddrsMap
      keys s).state.stores.staking.redelegations = s.stores.staking.redelegations ∧
    (rebuildValidators K ctx applyAllowedAddrs allowedAddrsMap
      keys s).state.stores.staking.unbondingDelegations =
        s.stores.staking.unbondingDelegations := by
  induction keys generalizing s with
  | nil => exact ⟨rfl, rfl, rfl⟩
  | cons key keys ih =>
    simp only [rebuildValidators]
    cases hg : GetValidator K s (key.drop 1) with
    | none => exact ⟨rfl, rfl, rfl⟩
    | some v =>
      simp only
      generalize hv : (if (applyAllowedAddrs && !allowedAddrsMap (K.ValAddressString
        (key.drop 1))) = true then _ else _ : Validator) = v'
      exact ih (SetValidator K ctx s v')

/-! ## The staking and slashing pass -/

/-- The state on which the validator loop starts: redelegations and unbonding
delegations have been rewritten. -/
theorem normalizeStaking_returned {C ρ : Type} (K : Keepers C ρ) (ctx : Context)
    (applyAllowedAddrs : Bool) (allowedAddrsMap : String → Bool) (s t : State C ρ)
    (h : normalizeStaking K ctx applyAllowedAddrs allowedAddrsMap s = .returned () t) :
    ∃ u, rebuildValidators K ctx applyAllowedAddrs allowedAddrsMap
        (KVStoreReversePrefixIterator
          (resetUnbondingDelegations ctx
            (resetRedelegations ctx s.stores.staking.redelegations
              s).stores.staking.unbondingDelegations
            (resetRedelegations ctx s.stores.staking.redelegations s)).stores.staking.validators
          K.ValidatorsKey)
        (resetUnbondingDelegations ctx
          (resetRedelegations ctx s.stores.staking.redelegations
            s).stores.staking.unbondingDelegations
          (resetRedelegations ctx s.stores.staking.redelegations s)) = .returned () u ∧
      ((K.IterCloseError = true ∧ t = u) ∨
       (K.IterCloseError = false ∧ ∃ st, K.ApplyAndReturnValidatorSetUpdates ctx u.stores = some st ∧
          t = resetSigningInfos ctx st.slashing
            { stores := st,
              calls := u.calls ++ [Call.ApplyAndReturnValidatorSetUpdates ctx.BlockHeight] })) := by
  unfold normalizeStaking at h
  simp only at h
  generalize hb : resetUnbondingDelegations ctx
    (resetRedelegations ctx s.stores.staking.redelegations s).stores.staking.unbondingDelegations
    (resetRedelegations ctx s.stores.staking.redelegations s) = sb at h ⊢
  cases hr : rebuildValidators K ctx applyAllowedAddrs allowedAddrsMap
      (KVStoreReversePrefixIterator sb.stores.staking.validators K.ValidatorsKey) sb with
  | aborted why u =>
    rw [hr] at h
    simp [Outcome.andThen] at h
  | returned a u =>
    rw [hr] at h
    simp only [Outcome.andThen] at h
    refine ⟨u, rfl, ?_⟩
    cases hc : K.IterCloseError with
    | true =>
      rw [hc] at h
      simp only [if_true, Outcome.returned.injEq, true_and] at h
      exact Or.inl ⟨rfl, h.symm⟩
    | false =>
      rw [hc] at h
      simp only [Bool.false_eq_true, if_false] at h
      cases ha : K.ApplyAndReturnValidatorSetUpdates ctx u.stores with
      | none =>
        rw [ha] at h
        simp at h
      | some st =>
        rw [ha] at h
        simp only [Outcome.returned.injEq, true_and] at h
        exact Or.inr ⟨rfl, st, rfl, h.symm⟩

/-- Whatever the outcome, the staking and slashing pass logs no withdrawal, and
it aborts only for a missing validator or a failed validator-set update. -/
theorem normalizeStaking_calls {C ρ : Type} (K : Keepers C ρ) (ctx : Context)
    (applyAllowedAddrs : Bool) (allowedAddrsMap : String → Bool) (s : State C ρ) :
    ExtendsWithoutWithdrawal s
      (normalizeStaking K ctx applyAllowedAddrs allowedAddrsMap s).state ∧
    ∀ why t, normalizeStaking K ctx applyAllowedAddrs allowedAddrsMap s = .aborted why t →
      why = .validatorNotFound ∨ why = .validatorSetUpdate := by
  unfold normalizeStaking
  simp only
  obtain ⟨-, -, -, -, -, -, ea⟩ := resetRedelegations_spec ctx s.stores.staking.redelegations s
  obtain ⟨-, -, -, -, -, -, eb⟩ := resetUnbondingDelegations_spec ctx
    (resetRedelegations ctx s.stores.staking.redelegations s).stores.staking.unbondingDelegations
    (resetRedelegations ctx s.stores.staking.redelegations s)
  generalize resetUnbondingDelegations ctx
    (resetRedelegations ctx s.stores.staking.redelegations s).stores.staking.unbondingDelegations
    (resetRedelegations ctx s.stores.staking.redelegations s) = sb at eb ⊢
  have eab := ea.trans eb
  obtain ⟨ec, hab⟩ := rebuildValidators_calls K ctx applyAllowedAddrs allowedAddrsMap
    (KVStoreReversePrefixIterator sb.stores.staking.validators K.ValidatorsKey) sb
  cases hr : rebuildValidators K ctx applyAllowedAddrs allowedAddrsMap
      (KVStoreReversePrefixIterator sb.stores.staking.validators K.ValidatorsKey) sb with
  | aborted why u =>
    rw [hr] at ec
    simp only [Outcome.andThen, Outcome.state] at ec ⊢
    refine ⟨eab.trans ec, ?_⟩
    intro why' t h
    simp only [Outcome.aborted.injEq] at h
    exact Or.inl (h.1 ▸ hab why u hr)
  | returned a u =>
    rw [hr] at ec
    simp only [Outcome.andThen, Outcome.state] at ec ⊢
    cases hc : K.IterCloseError with
    | true =>
      simp only [if_true, Outcome.state]
      exact ⟨eab.trans ec, by intro why t h; simp at h⟩
    | false =>
      simp only [Bool.false_eq_true, if_false]
      cases ha : K.ApplyAndReturnValidatorSetUpdates ctx u.stores with
      | none =>
        simp only [Outcome.state]
        refine ⟨(eab.trans ec).trans (ExtendsWithoutWithdrawal.of_calls
          (Call.ApplyAndReturnValidatorSetUpdates ctx.BlockHeight) rfl rfl), ?_⟩
        intro why t h
        simp only [Outcome.aborted.injEq] at h
        exact Or.inr h.1.symm
      | some st =>
        simp only [Outcome.state]
        obtain ⟨-, -, -, ed⟩ := resetSigningInfos_spec ctx st.slashing
          ({ stores := st, calls := u.calls ++
            [Call.ApplyAndReturnValidatorSetUpdates ctx.BlockHeight] } : State C ρ)
        refine ⟨((eab.trans ec).trans ?_).trans ed, by intro why t h; simp at h⟩
        exact ExtendsWithoutWithdrawal.of_calls
          (Call.ApplyAndReturnValidatorSetUpdates ctx.BlockHeight) rfl rfl

/-- A returning run parsed the whole allow-list, passed the invariant check,
completed the settlement pass and completed the staking and slashing pass. -/
theorem prepForZeroHeightGenesis_returned {C ρ : Type} [Add C] (K : Keepers C ρ)
    (ctx : Context) (jailAllowedAddrs : List String) (s t : State C ρ)
    (h : prepForZeroHeightGenesis K ctx jailAllowedAddrs s = .returned () t) :
    ∃ allowedAddrsMap s₁,
      buildAllowedAddrsMap K jailAllowedAddrs (fun _ => false) = some allowedAddrsMap ∧
      settleDistribution K ctx s = .returned (GetAllDelegations s) s₁ ∧
      normalizeStaking K ctx (decide (jailAllowedAddrs.length > 0)) allowedAddrsMap
        (reinitDistribution K ctx (GetAllDelegations s) s₁) = .returned () t := by
  unfold prepForZeroHeightGenesis at h
  simp only at h
  cases hb : buildAllowedAddrsMap K jailAllowedAddrs (fun _ => false) with
  | none =>
    rw [hb] at h
    simp at h
  | some m =>
    rw [hb] at h
    simp only at h
    by_cases hi : K.AssertInvariants ctx s.stores = false
    · rw [if_pos hi] at h
      simp at h
    · rw [if_neg hi] at h
      obtain ⟨-, -, hs⟩ := settleDistribution_spec K ctx s
      rcases hs with ⟨s₁, hs₁, -⟩ | ⟨s₁, pre, suf, hs₁, -, -⟩
      · rw [hs₁] at h
        exact ⟨m, s₁, rfl, hs₁, h⟩
      · rw [hs₁] at h
        simp [Outcome.andThen] at h

theorem buildAllowedAddrsMap_spec {C ρ : Type} (K : Keepers C ρ) (l : List String)
    (m m' : String → Bool) (h : buildAllowedAddrsMap K l m = some m') :
    ∀ k, m' k = (m k || decide (k ∈ l)) := by
  induction l generalizing m with
  | nil =>
    simp only [buildAllowedAddrsMap, Option.some.injEq] at h
    intro k
    simp [← h]
  | cons a l ih =>
    simp only [buildAllowedAddrsMap] at h
    cases hp : K.ValAddressFromBech32 a with
    | none =>
      rw [hp] at h
      simp at h
    | some b =>
      rw [hp] at h
      intro k
      rw [ih _ h k]
      by_cases hk : k = a
      · simp [hk]
      · simp [hk]

theorem buildAllowedAddrsMap_none {C ρ : Type} (K : Keepers C ρ) (l : List String)
    (m : String → Bool) (h : buildAllowedAddrsMap K l m = none) :
    ∃ a ∈ l, K.ValAddressFromBech32 a = none := by
  induction l generalizing m with
  | nil => simp [buildAllowedAddrsMap] at h
  | cons a l ih =>
    simp only [buildAllowedAddrsMap] at h
    cases hp : K.ValAddressFromBech32 a with
    | none => exact ⟨a, List.mem_cons_self _ _, hp⟩
    | some b =>
      rw [hp] at h
      obtain ⟨x, hx, hx'⟩ := ih _ h
      exact ⟨x, List.mem_cons_of_mem _ hx, hx'⟩

/-! ## Claims about prepForZeroHeightGenesis -/

/-- C6: when `prepForZeroHeightGenesis` aborts on an allow-list entry that does not
parse, or on a failed invariant assertion, the state at the abort is the state at
entry (stores and call log alike, so no state-changing call has been made), and
these two aborts happen exactly for the stated reasons. -/
theorem prepForZeroHeightGenesis_early_abort_leaves_state {C ρ : Type} [Add C]
    (K : Keepers C ρ) (ctx : Context) (jailAllowedAddrs : List String) (s t : State C ρ)
    (why : Abort) (h : prepForZeroHeightGenesis K ctx jailAllowedAddrs s = .aborted why t)
    (hwhy : why = .addressFormat ∨ why = .invariantViolation) :
    t = s ∧
    (why = .addressFormat → ∃ a ∈ jailAllowedAddrs, K.ValAddressFromBech32 a = none) ∧
    (why = .invariantViolation →
      (∀ a ∈ jailAllowedAddrs, K.ValAddressFromBech32 a ≠ none) ∧
        K.AssertInvariants ctx s.stores = false) := by
  unfold prepForZeroHeightGenesis at h
  simp only at h
  cases hb : buildAllowedAddrsMap K jailAllowedAddrs (fun _ => false) with
  | none =>
    rw [hb] at h
    simp only [Outcome.aborted.injEq] at h
    obtain ⟨hw, hs⟩ := h
    subst hw
    exact ⟨hs.symm, fun _ => buildAllowedAddrsMap_none K _ _ hb, fun hc => by cases hc⟩
  | some m =>
    rw [hb] at h
    simp only at h
    have hparse : ∀ a ∈ jailAllowedAddrs, K.ValAddressFromBech32 a ≠ none := by
      have : ∀ (l : List String) (m₀ m₁ : String → Bool),
          buildAllowedAddrsMap K l m₀ = some m₁ → ∀ a ∈ l, K.ValAddressFromBech32 a ≠ none := by
        intro l
        induction l with
        | nil => intro _ _ _ a ha; cases ha
        | cons x l ih =>
          intro m₀ m₁ hm a ha
          simp only [buildAllowedAddrsMap] at hm
          cases hp : K.ValAddressFromBech32 x with
          | none => rw [hp] at hm; simp at hm
          | some b =>
            rw [hp] at hm
            rcases List.mem_cons.mp ha with rfl | ha'
            · rw [hp]; simp
            · exact ih _ _ hm a ha'
      exact this _ _ _ hb
    by_cases hi : K.AssertInvariants ctx s.stores = false
    · rw [if_pos hi] at h
      simp only [Outcome.aborted.injEq] at h
      obtain ⟨hw, hs⟩ := h
      subst hw
      exact ⟨hs.symm, (fun hc => by cases hc), fun _ => ⟨hparse, hi⟩⟩
    · rw [if_neg hi] at h
      exfalso
      obtain ⟨-, -, hs⟩ := settleDistribution_spec K ctx s
      rcases hs with ⟨s₁, hs₁, -⟩ | ⟨s₁, pre, suf, hs₁, -, -⟩
      · rw [hs₁] at h
        simp only [Outcome.andThen] at h
        have := (normalizeStaking_calls K ctx _ m _).2 why t h
        rcases hwhy with rfl | rfl <;> rcases this with h' | h' <;> cases h'
      · rw [hs₁] at h
        simp only [Outcome.andThen, Outcome.aborted.injEq] at h
        rcases hwhy with rfl | rfl <;> cases h.1

/-- Witness for C6: a run with the unparsable entry `"x"` aborts with the entry
state, and so does a run on a state that breaks the invariant. -/
theorem prepForZeroHeightGenesis_early_abort_leaves_state_witness :
    (∃ t, prepForZeroHeightGenesis Sample.keepers Sample.ctx ["A", "x"] Sample.state =
        .aborted .addressFormat t ∧ t = Sample.state) ∧
    (∃ t, prepForZeroHeightGenesis Sample.keepers Sample.ctx ["A"] Sample.brokenState =
        .aborted .invariantViolation t ∧ t = Sample.brokenState) :=
  ⟨⟨Sample.state, rfl, (prepForZeroHeightGenesis_early_abort_leaves_state Sample.keepers
      Sample.ctx ["A", "x"] Sample.state Sample.state .addressFormat rfl (Or.inl rfl)).1⟩,
   ⟨Sample.brokenState, rfl, (prepForZeroHeightGenesis_early_abort_leaves_state Sample.keepers
      Sample.ctx ["A"] Sample.brokenState Sample.brokenState .invariantViolation rfl
      (Or.inr rfl)).1⟩⟩

/-- C10: in every run of `prepForZeroHeightGenesis` the log of calls is the log at
entry, followed by one commission withdrawal per validator and one reward
withdrawal per delegation, all made at the entry height of the context, followed
by the two deletions and the height override to 0, followed by calls none of
which is a withdrawal; the only other runs are aborted ones, which stop inside
or before the withdrawals and make no deletion and no override. -/
theorem prepForZeroHeightGenesis_withdrawals_before_deletions {C ρ : Type} [Add C]
    (K : Keepers C ρ) (ctx : Context) (jailAllowedAddrs : List String) (s : State C ρ) :
    (∃ rest : List Call, (∀ c ∈ rest, c.isWithdrawal = false) ∧
      (prepForZeroHeightGenesis K ctx jailAllowedAddrs s).state.calls =
        s.calls ++
          ((IterateValidators K s).map
            (fun val => Call.WithdrawValidatorCommission ctx.BlockHeight val.OperatorAddress) ++
           (GetAllDelegations s).map
            (fun d => Call.WithdrawDelegationRewards ctx.BlockHeight d.DelegatorAddress
              d.ValidatorAddress)) ++
          [Call.DeleteAllValidatorSlashEvents ctx.BlockHeight,
           Call.DeleteAllValidatorHistoricalRewards ctx.BlockHeight,
           Call.WithBlockHeight 0] ++ rest) ∨
    ((prepForZeroHeightGenesis K ctx jailAllowedAddrs s).isReturned = false ∧
      ∃ pre suf : List Call,
        (IterateValidators K s).map
            (fun val => Call.WithdrawValidatorCommission ctx.BlockHeight val.OperatorAddress) ++
          (GetAllDelegations s).map
            (fun d => Call.WithdrawDelegationRewards ctx.BlockHeight d.DelegatorAddress
              d.ValidatorAddress) = pre ++ suf ∧
        (prepForZeroHeightGenesis K ctx jailAllowedAddrs s).state.calls = s.calls ++ pre) := by
  unfold prepForZeroHeightGenesis
  simp only
  cases hb : buildAllowedAddrsMap K jailAllowedAddrs (fun _ => false) with
  | none => exact Or.inr ⟨rfl, [], _, rfl, by simp [Outcome.state]⟩
  | some m =>
    simp only
    by_cases hi : K.AssertInvariants ctx s.stores = false
    · rw [if_pos hi]
      exact Or.inr ⟨rfl, [], _, rfl, by simp [Outcome.state]⟩
    · rw [if_neg hi]
      obtain ⟨-, -, hs⟩ := settleDistribution_spec K ctx s
      rcases hs with ⟨s₁, hs₁, hc₁⟩ | ⟨s₁, pre, suf, hs₁, hsplit, hc₁⟩
      · rw [hs₁]
        simp only [Outcome.andThen]
        obtain ⟨-, -, r₁, hr₁, e₁⟩ := reinitDistribution_frame K ctx (GetAllDelegations s) s₁
        obtain ⟨⟨r₂, hr₂, e₂⟩, -⟩ := normalizeStaking_calls K ctx
          (decide (jailAllowedAddrs.length > 0)) m
          (reinitDistribution K ctx (GetAllDelegations s) s₁)
        refine Or.inl ⟨r₁ ++ r₂, ?_, ?_⟩
        · intro c hc
          rcases List.mem_append.mp hc with h | h
          · exact hr₁ c h
          · exact hr₂ c h
        · rw [e₂, e₁, State.log_calls, hc₁]
          simp [settlementCalls]
      · rw [hs₁]
        simp only [Outcome.andThen, Outcome.state]
        exact Or.inr ⟨rfl, pre, suf, hsplit, hc₁⟩

/-- The staking store after the settlement and re-initialisation passes is the
staking store at entry. -/
theorem staking_before_normalizeStaking {C ρ : Type} [Add C] (K : Keepers C ρ) (ctx : Context)
    (s s₁ : State C ρ) (dels dels' : List Delegation)
    (hs : settleDistribution K ctx s = .returned dels s₁) :
    (reinitDistribution K ctx dels' s₁).stores.staking = s.stores.staking := by
  obtain ⟨e₁, -, -⟩ := settleDistribution_spec K ctx s
  rw [hs] at e₁
  obtain ⟨e₂, -, -⟩ := reinitDistribution_frame K ctx dels' s₁
  exact e₂.trans e₁

/-- C2: after a returning run of `prepForZeroHeightGenesis`, the redelegation and
unbonding-delegation records are the records at entry, in the same order and
with the same delegator and validator addresses and the same number and order
of entries, every entry having creation height 0 and its other fields
unchanged. Store keys are unique, and the validator-set update of the staking
keeper is taken not to touch these records. -/
theorem prepForZeroHeightGenesis_resets_creation_heights {C ρ : Type} [Add C]
    (K : Keepers C ρ) (ctx : Context) (jailAllowedAddrs : List String) (s t : State C ρ)
    (h : prepForZeroHeightGenesis K ctx jailAllowedAddrs s = .returned () t)
    (hApply : ApplyKeepsUnbonding K)
    (hR : (s.stores.staking.redelegations.map REDKey).Nodup)
    (hU : (s.stores.staking.unbondingDelegations.map UBDKey).Nodup) :
    RedelegationsReset s.stores.staking.redelegations t.stores.staking.redelegations ∧
    UnbondingDelegationsReset s.stores.staking.unbondingDelegations
      t.stores.staking.unbondingDelegations := by
  obtain ⟨m, s₁, -, hs, hn⟩ := prepForZeroHeightGenesis_returned K ctx jailAllowedAddrs s t h
  have e₀ := staking_before_normalizeStaking K ctx s s₁ _ (GetAllDelegations s) hs
  generalize reinitDistribution K ctx (GetAllDelegations s) s₁ = s₀ at e₀ hn
  obtain ⟨u, hu, ht⟩ := normalizeStaking_returned K ctx _ m s₀ t hn
  obtain ⟨-, -, -, -, a₅, a₆, -⟩ := resetRedelegations_spec ctx s₀.stores.staking.redelegations s₀
  obtain ⟨-, -, -, -, b₅, b₆, -⟩ := resetUnbondingDelegations_spec ctx
    (resetRedelegations ctx s₀.stores.staking.redelegations s₀).stores.staking.unbondingDelegations
    (resetRedelegations ctx s₀.stores.staking.redelegations s₀)
  obtain ⟨-, c₂, c₃⟩ := rebuildValidators_frame K ctx (decide (jailAllowedAddrs.length > 0)) m
    (KVStoreReversePrefixIterator
      (resetUnbondingDelegations ctx
        (resetRedelegations ctx s₀.stores.staking.redelegations
          s₀).stores.staking.unbondingDelegations
        (resetRedelegations ctx s₀.stores.staking.redelegations s₀)).stores.staking.validators
      K.ValidatorsKey)
    (resetUnbondingDelegations ctx
      (resetRedelegations ctx s₀.stores.staking.redelegations
        s₀).stores.staking.unbondingDelegations
      (resetRedelegations ctx s₀.stores.staking.redelegations s₀))
  rw [hu] at c₂ c₃
  simp only [Outcome.state] at c₂ c₃
  have hreds : u.stores.staking.redelegations =
      s.stores.staking.redelegations.map resetRedelegationEntries := by
    rw [c₂, b₅, a₆, e₀]
    exact foldl_setRecord REDKey resetRedelegationEntries resetRedelegationEntries_key _ hR
  have hubds : u.stores.staking.unbondingDelegations =
      s.stores.staking.unbondingDelegations.map resetUnbondingEntries := by
    rw [c₃, b₆, a₅, e₀]
    exact foldl_setRecord UBDKey resetUnbondingEntries resetUnbondingEntries_key _ hU
  have hfinal : t.stores.staking.redelegations = u.stores.staking.redelegations ∧
      t.stores.staking.unbondingDelegations = u.stores.staking.unbondingDelegations := by
    rcases ht with ⟨-, rfl⟩ | ⟨-, st, hst, rfl⟩
    · exact ⟨rfl, rfl⟩
    · obtain ⟨-, d₂, -, -⟩ := resetSigningInfos_spec ctx st.slashing
        ({ stores := st, calls := u.calls ++
          [Call.ApplyAndReturnValidatorSetUpdates ctx.BlockHeight] } : State C ρ)
      rw [d₂]
      exact hApply ctx u.stores st hst
  rw [hfinal.1, hfinal.2, hreds, hubds]
  exact ⟨redelegationsReset_map _, unbondingDelegationsReset_map _⟩

/-- C1, amended: after a returning run of `prepForZeroHeightGenesis`, every validator
of the store is still there, and it is jailed exactly when it was jailed before
or the allow-list is non-empty and none of its entries is, as a string, the
string form `addr.String()` of the validator's operator address. The validator
store is consistent, and the validator-set update of the staking keeper is
taken not to change jailed flags. -/
theorem prepForZeroHeightGenesis_jailing {C ρ : Type} [Add C]
    (K : Keepers C ρ) (ctx : Context) (jailAllowedAddrs : List String) (s t : State C ρ)
    (h : prepForZeroHeightGenesis K ctx jailAllowedAddrs s = .returned () t)
    (hApply : ApplyKeepsJailed K)
    (hstore : ValidatorStoreConsistent K.ValidatorsKey s.stores.staking.validators)
    (addr : Bytes) (v : Validator) (hv : GetValidator K s addr = some v) :
    ∃ v', GetValidator K t addr = some v' ∧
      (v'.Jailed = true ↔
        (v.Jailed = true ∨
          (jailAllowedAddrs ≠ [] ∧ K.ValAddressString addr ∉ jailAllowedAddrs))) := by
  obtain ⟨m, s₁, hm, hs, hn⟩ := prepForZeroHeightGenesis_returned K ctx jailAllowedAddrs s t h
  have e₀ := staking_before_normalizeStaking K ctx s s₁ _ (GetAllDelegations s) hs
  generalize reinitDistribution K ctx (GetAllDelegations s) s₁ = s₀ at e₀ hn
  obtain ⟨u, hu, ht⟩ := normalizeStaking_returned K ctx _ m s₀ t hn
  obtain ⟨-, -, a₃, -, -, -, -⟩ := resetRedelegations_spec ctx s₀.stores.staking.redelegations s₀
  obtain ⟨-, -, b₃, -, -, -, -⟩ := resetUnbondingDelegations_spec ctx
    (resetRedelegations ctx s₀.stores.staking.redelegations s₀).stores.staking.unbondingDelegations
    (resetRedelegations ctx s₀.stores.staking.redelegations s₀)
  have hvals : (resetUnbondingDelegations ctx
      (resetRedelegations ctx s₀.stores.staking.redelegations
        s₀).stores.staking.unbondingDelegations
      (resetRedelegations ctx s₀.stores.staking.redelegations s₀)).stores.staking.validators =
      s.stores.staking.validators := by rw [b₃, a₃, e₀]
  generalize resetUnbondingDelegations ctx
    (resetRedelegations ctx s₀.stores.staking.redelegations s₀).stores.staking.unbondingDelegations
    (resetRedelegations ctx s₀.stores.staking.redelegations s₀) = sb at hvals hu
  obtain ⟨hnodup, hcons⟩ := hstore
  have hiter : ∀ k, k ∈ KVStoreReversePrefixIterator sb.stores.staking.validators K.ValidatorsKey ↔
      ∃ w, (k, w) ∈ s.stores.staking.validators ∧ hasKeyPrefix K.ValidatorsKey k = true := by
    intro k
    rw [hvals]
    simp only [KVStoreReversePrefixIterator, KVStorePrefixIterator, List.mem_reverse, List.mem_map,
      List.mem_filter]
    constructor
    · rintro ⟨⟨k', w⟩, ⟨hmem, hp⟩, rfl⟩
      exact ⟨w, hmem, hp⟩
    · rintro ⟨w, hmem, hp⟩
      exact ⟨(k, w), ⟨hmem, hp⟩, rfl⟩
  have hiternodup :
      (KVStoreReversePrefixIterator sb.stores.staking.validators K.ValidatorsKey).Nodup := by
    rw [hvals]
    simp only [KVStoreReversePrefixIterator, KVStorePrefixIterator, List.nodup_reverse]
    exact List.Nodup.sublist (List.Sublist.map _ (List.filter_sublist _)) hnodup
  have hkeys : ∀ k ∈ KVStoreReversePrefixIterator sb.stores.staking.validators K.ValidatorsKey,
      ∃ w, KVStore.get k sb.stores.staking.validators = some w ∧
        k = GetValidatorKey K.ValidatorsKey w.OperatorAddress := by
    intro k hk
    obtain ⟨w, hmem, hp⟩ := (hiter k).mp hk
    exact ⟨w, by rw [hvals]; exact KVStore.get_of_mem _ hnodup k w hmem, hcons (k, w) hmem hp⟩
  obtain ⟨u', hu', hget, -⟩ := rebuildValidators_spec K ctx (decide (jailAllowedAddrs.length > 0))
    m _ sb hiternodup hkeys
  rw [hu] at hu'
  simp only [Outcome.returned.injEq, true_and] at hu'
  subst hu'
  have hv' : KVStore.get (GetValidatorKey K.ValidatorsKey addr) s.stores.staking.validators =
      some v := hv
  have hin : GetValidatorKey K.ValidatorsKey addr ∈
      KVStoreReversePrefixIterator sb.stores.staking.validators K.ValidatorsKey :=
    (hiter _).mpr ⟨v, KVStore.mem_of_get _ _ _ hv', by simp [GetValidatorKey, hasKeyPrefix]⟩
  have hu_get : KVStore.get (GetValidatorKey K.ValidatorsKey addr) u.stores.staking.validators =
      some (rebuildRecord K (decide (jailAllowedAddrs.length > 0)) m
        (GetValidatorKey K.ValidatorsKey addr) v) := by
    rw [hget, if_pos hin, hvals, hv']
    rfl
  have hjail : ((rebuildRecord K (decide (jailAllowedAddrs.length > 0)) m
        (GetValidatorKey K.ValidatorsKey addr) v).Jailed = true ↔
      (v.Jailed = true ∨
        (jailAllowedAddrs ≠ [] ∧ K.ValAddressString addr ∉ jailAllowedAddrs))) := by
    have hmk := buildAllowedAddrsMap_spec K jailAllowedAddrs _ m hm (K.ValAddressString addr)
    simp only [rebuildRecord, GetValidatorKey, List.drop_succ_cons, List.drop_zero, hmk,
      Bool.false_or, Bool.or_eq_true, Bool.and_eq_true, decide_eq_true_eq, Bool.not_eq_true',
      decide_eq_false_iff_not, gt_iff_lt, List.length_pos, ne_eq]
  rcases ht with ⟨-, rfl⟩ | ⟨-, st, hst, rfl⟩
  · exact ⟨_, hu_get, hjail⟩
  · obtain ⟨-, d₂, -, -⟩ := resetSigningInfos_spec ctx st.slashing
      ({ stores := st, calls := u.calls ++
        [Call.ApplyAndReturnValidatorSetUpdates ctx.BlockHeight] } : State C ρ)
    have hj := hApply ctx u.stores st hst (GetValidatorKey K.ValidatorsKey addr)
    rw [hu_get] at hj
    simp only [Option.map_some'] at hj
    unfold GetValidator
    rw [d₂]
    cases hg : KVStore.get (GetValidatorKey K.ValidatorsKey addr) st.staking.validators with
    | none => rw [hg] at hj; simp at hj
    | some v' =>
      rw [hg] at hj
      simp only [Option.map_some', Option.some.injEq] at hj
      exact ⟨v', rfl, by rw [hj]; exact hjail⟩

/-! ## The community pool -/

theorem reinitValidators_pool {C ρ : Type} [AddCommMonoid C] (K : Keepers C ρ) (ctx : Context)
    (hK : HooksKeepCommunityPool K) (vals : List Validator) (s : State C ρ)
    (hnodup : (vals.map Validator.OperatorAddress).Nodup) :
    (reinitValidators K ctx vals s).stores.distr.FeePool.CommunityPool =
      s.stores.distr.FeePool.CommunityPool +
        (vals.map (fun val => K.GetValidatorOutstandingRewardsCoins ctx s.stores.distr.rest
          val.OperatorAddress)).sum := by
  obtain ⟨hpool, hout, -, -, -⟩ := hK
  induction vals generalizing s with
  | nil => simp [reinitValidators]
  | cons val vals ih =>
    simp only [List.map_cons, List.nodup_cons] at hnodup
    simp only [reinitValidators, List.map_cons, List.sum_cons]
    rw [ih _ hnodup.2]
    have hsum : ∀ (st : Staking) (d : DistrState C ρ), d.rest = s.stores.distr.rest →
        (vals.map (fun v => K.GetValidatorOutstandingRewardsCoins ctx
          (K.AfterValidatorCreated ctx st d val.OperatorAddress).rest v.OperatorAddress)) =
        vals.map (fun v => K.GetValidatorOutstandingRewardsCoins ctx s.stores.distr.rest
          v.OperatorAddress) := by
      intro st d hd
      apply List.map_congr_left
      intro v hv
      have hne : v.OperatorAddress ≠ val.OperatorAddress := by
        intro he
        exact hnodup.1 (he ▸ List.mem_map_of_mem Validator.OperatorAddress hv)
      rw [hout ctx st d _ _ hne, hd]
    simp only [State.setDistr_distr, hpool]
    rw [hsum _ (SetFeePool ctx s ⟨s.stores.distr.FeePool.CommunityPool +
      K.GetValidatorOutstandingRewardsCoins ctx s.stores.distr.rest
        val.OperatorAddress⟩).stores.distr rfl]
    simp only [SetFeePool, State.log_stores, State.setDistr_distr]
    rw [add_assoc]

theorem reinitDelegations_pool {C ρ : Type} (K : Keepers C ρ) (ctx : Context)
    (hK : HooksKeepCommunityPool K) (dels : List Delegation) (s : State C ρ) :
    (reinitDelegations K ctx dels s).stores.distr.FeePool.CommunityPool =
      s.stores.distr.FeePool.CommunityPool := by
  obtain ⟨-, -, hb, ha, -⟩ := hK
  induction dels generalizing s with
  | nil => rfl
  | cons del dels ih =>
    simp only [reinitDelegations]
    rw [ih]
    simp only [State.setDistr_distr, ha, hb, State.log_stores]

/-- C4: in a returning run of `prepForZeroHeightGenesis`, the community pool at the
end is the community pool at the start of the re-initialisation pass (the
state `s₁` the settlement pass returns) plus the sum, over the validators of the
store, of the outstanding reward coins each of them has at that moment. The
hooks of the distribution keeper and the validator-set update are taken not
to move the community pool, re-initialising one validator is taken not to
change the outstanding rewards of another, and no two validators share an
operator address. -/
theorem prepForZeroHeightGenesis_community_pool {C ρ : Type} [AddCommMonoid C]
    (K : Keepers C ρ) (ctx : Context) (jailAllowedAddrs : List String) (s s₁ t : State C ρ)
    (dels : List Delegation)
    (hsettle : settleDistribution K ctx s = .returned dels s₁)
    (h : prepForZeroHeightGenesis K ctx jailAllowedAddrs s = .returned () t)
    (hK : HooksKeepCommunityPool K)
    (hnodup : ((IterateValidators K s).map Validator.OperatorAddress).Nodup) :
    t.stores.distr.FeePool.CommunityPool =
      s₁.stores.distr.FeePool.CommunityPool +
        ((IterateValidators K s₁).map (fun val =>
          K.GetValidatorOutstandingRewardsCoins (ctx.WithBlockHeight 0) s₁.stores.distr.rest
            val.OperatorAddress)).sum := by
  obtain ⟨m, s₁', -, hs, hn⟩ := prepForZeroHeightGenesis_returned K ctx jailAllowedAddrs s t h
  rw [hsettle] at hs
  simp only [Outcome.returned.injEq] at hs
  obtain ⟨hd, rfl⟩ := hs
  have hst : s₁.stores.staking = s.stores.staking := by
    obtain ⟨e₁, -, -⟩ := settleDistribution_spec K ctx s
    rw [hsettle] at e₁
    exact e₁
  have hvals : IterateValidators K s₁ = IterateValidators K s := by
    simp only [IterateValidators, hst]
  have hpool₀ : (reinitDistribution K ctx (GetAllDelegations s) s₁).stores.distr.FeePool.CommunityPool
      = s₁.stores.distr.FeePool.CommunityPool +
        ((IterateValidators K s₁).map (fun val =>
          K.GetValidatorOutstandingRewardsCoins (ctx.WithBlockHeight 0) s₁.stores.distr.rest
            val.OperatorAddress)).sum := by
    unfold reinitDistribution
    simp only [State.log_stores]
    rw [reinitDelegations_pool K _ hK]
    have := reinitValidators_pool K (ctx.WithBlockHeight 0) hK
      (IterateValidators K (s₁.log (Call.WithBlockHeight 0))) (s₁.log (Call.WithBlockHeight 0))
      (by
        have e : IterateValidators K (s₁.log (Call.WithBlockHeight 0)) = IterateValidators K s₁ :=
          rfl
        rw [e, hvals]
        exact hnodup)
    exact this
  rw [← hpool₀]
  generalize reinitDistribution K ctx (GetAllDelegations s) s₁ = s₀ at hn
  obtain ⟨u, hu, ht⟩ := normalizeStaking_returned K ctx _ m s₀ t hn
  obtain ⟨a₁, -⟩ := resetRedelegations_spec ctx s₀.stores.staking.redelegations s₀
  obtain ⟨b₁, -⟩ := resetUnbondingDelegations_spec ctx
    (resetRedelegations ctx s₀.stores.staking.redelegations s₀).stores.staking.unbondingDelegations
    (resetRedelegations ctx s₀.stores.staking.redelegations s₀)
  obtain ⟨c₁, -, -⟩ := rebuildValidators_frame K ctx (decide (jailAllowedAddrs.length > 0)) m
    (KVStoreReversePrefixIterator
      (resetUnbondingDelegations ctx
        (resetRedelegations ctx s₀.stores.staking.redelegations
          s₀).stores.staking.unbondingDelegations
        (resetRedelegations ctx s₀.stores.staking.redelegations s₀)).stores.staking.validators
      K.ValidatorsKey)
    (resetUnbondingDelegations ctx
      (resetRedelegations ctx s₀.stores.staking.redelegations
        s₀).stores.staking.unbondingDelegations
      (resetRedelegations ctx s₀.stores.staking.redelegations s₀))
  rw [hu] at c₁
  simp only [Outcome.state] at c₁
  have hud : u.stores.distr = s₀.stores.distr := by rw [c₁, b₁, a₁]
  rcases ht with ⟨-, rfl⟩ | ⟨-, st, hst', rfl⟩
  · rw [hud]
  · obtain ⟨d₁, -, -, -⟩ := resetSigningInfos_spec ctx st.slashing
      ({ stores := st, calls := u.calls ++
        [Call.ApplyAndReturnValidatorSetUpdates ctx.BlockHeight] } : State C ρ)
    rw [d₁]
    simp only
    rw [hK.2.2.2.2 ctx u.stores st hst', hud]

/-! ## Facts about the sample collaborators -/

theorem Sample.keepers_applyKeepsJailed : ApplyKeepsJailed Sample.keepers := by
  intro ctx st st' h key
  simp only [Sample.keepers, Option.some.injEq] at h
  rw [h]

theorem Sample.keepers_applyKeepsUnbonding : ApplyKeepsUnbonding Sample.keepers := by
  intro ctx st st' h
  simp only [Sample.keepers, Option.some.injEq] at h
  rw [h]
  exact ⟨rfl, rfl⟩

theorem Sample.keepers_hooksKeepCommunityPool : HooksKeepCommunityPool Sample.keepers := by
  refine ⟨fun _ _ _ _ => rfl, ?_, fun _ _ _ _ _ => rfl, fun _ _ _ _ _ => rfl, ?_⟩
  · intro ctx st d a b hne
    simp [Sample.keepers, hne]
  · intro ctx st st' h
    simp only [Sample.keepers, Option.some.injEq] at h
    rw [h]

theorem Sample.staking_consistent :
    ValidatorStoreConsistent Sample.keepers.ValidatorsKey
      Sample.state.stores.staking.validators := by
  unfold ValidatorStoreConsistent
  decide

/-! ## Witnesses on the sample state

The run below uses the allow-list `["A", "B"]` on the validators A, B, C, D. -/

/-- C1, as the claim states it, fails: the allow-list `["A", "c"]` parses, and its
entry `"c"` is the operator address `[3]` of validator C in a second accepted
spelling; C is not jailed before the run, its address is on the allow-list, and
it is jailed after the run, because the list is looked up by the string `"C"`. -/
theorem prepForZeroHeightGenesis_jails_address_on_allow_list :
    Sample.keepersBothCases.ValAddressFromBech32 "c" = some [3] ∧
    (GetValidator Sample.keepersBothCases Sample.state [3]).map Validator.Jailed = some false ∧
    ∃ t, prepForZeroHeightGenesis Sample.keepersBothCases Sample.ctx ["A", "c"] Sample.state =
        .returned () t ∧
      (GetValidator Sample.keepersBothCases t [3]).map Validator.Jailed = some true :=
  ⟨by decide, by decide,
    (prepForZeroHeightGenesis Sample.keepersBothCases Sample.ctx ["A", "c"] Sample.state).state,
    rfl, by decide⟩

/-- Witness for the amended C1: validator C, not jailed before and absent from the allow-list
`{A, B}`, ends jailed; after the run the jailed flags of A, B, C, D are
`false, true, true, true`, where B and D were jailed before. -/
theorem prepForZeroHeightGenesis_jailing_witness :
    (∃ v', GetValidator Sample.keepers
        (prepForZeroHeightGenesis Sample.keepers Sample.ctx ["A", "B"] Sample.state).state [3] =
          some v' ∧
      (v'.Jailed = true ↔
        ((Sample.validator 3 false 70).2.Jailed = true ∨
          (["A", "B"] ≠ [] ∧ Sample.keepers.ValAddressString [3] ∉ ["A", "B"])))) ∧
    (prepForZeroHeightGenesis Sample.keepers Sample.ctx ["A", "B"]
      Sample.state).state.stores.staking.validators.map (fun e => e.2.Jailed) =
        [false, true, true, true] :=
  ⟨prepForZeroHeightGenesis_jailing Sample.keepers Sample.ctx ["A", "B"] Sample.state
      (prepForZeroHeightGenesis Sample.keepers Sample.ctx ["A", "B"] Sample.state).state rfl
      Sample.keepers_applyKeepsJailed Sample.staking_consistent [3]
      (Sample.validator 3 false 70).2 rfl,
    by decide⟩

/-- Witness for C2: the sample redelegation and unbonding delegation come out with
creation heights 0 and everything else unchanged. -/
theorem prepForZeroHeightGenesis_resets_creation_heights_witness :
    (RedelegationsReset Sample.state.stores.staking.redelegations
        (prepForZeroHeightGenesis Sample.keepers Sample.ctx ["A", "B"]
          Sample.state).state.stores.staking.redelegations ∧
      UnbondingDelegationsReset Sample.state.stores.staking.unbondingDelegations
        (prepForZeroHeightGenesis Sample.keepers Sample.ctx ["A", "B"]
          Sample.state).state.stores.staking.unbondingDelegations) ∧
    (prepForZeroHeightGenesis Sample.keepers Sample.ctx ["A", "B"]
      Sample.state).state.stores.staking.redelegations.map
        (fun r => r.Entries.map (fun e => (e.CreationHeight, e.CompletionTime))) =
      [[(0, 7), (0, 8)]] :=
  ⟨prepForZeroHeightGenesis_resets_creation_heights Sample.keepers Sample.ctx ["A", "B"]
      Sample.state
      (prepForZeroHeightGenesis Sample.keepers Sample.ctx ["A", "B"] Sample.state).state rfl
      Sample.keepers_applyKeepsUnbonding (by decide) (by decide),
    by decide⟩

/-- Witness for C4: the pool of 1000 grows by the outstanding 3 of A and 4 of C. -/
theorem prepForZeroHeightGenesis_community_pool_witness :
    (prepForZeroHeightGenesis Sample.keepers Sample.ctx ["A", "B"]
        Sample.state).state.stores.distr.FeePool.CommunityPool =
      (settleDistribution Sample.keepers Sample.ctx Sample.state).state.stores.distr.FeePool.CommunityPool +
        ((IterateValidators Sample.keepers
            (settleDistribution Sample.keepers Sample.ctx Sample.state).state).map (fun val =>
          Sample.keepers.GetValidatorOutstandingRewardsCoins (Sample.ctx.WithBlockHeight 0)
            (settleDistribution Sample.keepers Sample.ctx Sample.state).state.stores.distr.rest
            val.OperatorAddress)).sum ∧
    (prepForZeroHeightGenesis Sample.keepers Sample.ctx ["A", "B"]
        Sample.state).state.stores.distr.FeePool.CommunityPool = 1007 :=
  ⟨prepForZeroHeightGenesis_community_pool Sample.keepers Sample.ctx ["A", "B"] Sample.state
      (settleDistribution Sample.keepers Sample.ctx Sample.state).state
      (prepForZeroHeightGenesis Sample.keepers Sample.ctx ["A", "B"] Sample.state).state
      Sample.state.stores.staking.delegations rfl rfl
      Sample.keepers_hooksKeepCommunityPool (by decide),
    by decide⟩

/-! ## Behaviour at concrete inputs -/

/-- C3: with one signing-info record of start height 5 and an `iter.Close()` that
reports an error, `prepForZeroHeightGenesis` returns and the record still has
start height 5; on the same state with a `Close` that succeeds the start
height comes out 0. -/
theorem prepForZeroHeightGenesis_close_error_keeps_start_height :
    (∃ t, prepForZeroHeightGenesis Sample.keepersCloseError Sample.ctx [] Sample.state =
        .returned () t ∧
      t.stores.slashing.map (fun e => (e.1, e.2.StartHeight)) = [([7], 5)]) ∧
    (∃ t, prepForZeroHeightGenesis Sample.keepers Sample.ctx [] Sample.state = .returned () t ∧
      t.stores.slashing.map (fun e => (e.1, e.2.StartHeight)) = [([7], 0)]) :=
  ⟨⟨(prepForZeroHeightGenesis Sample.keepersCloseError Sample.ctx [] Sample.state).state, rfl,
      by decide⟩,
   ⟨(prepForZeroHeightGenesis Sample.keepers Sample.ctx [] Sample.state).state, rfl,
      by decide⟩⟩

/-- C5: on a store holding validator `[1]` with power 100 and validator `[2]` with
power 50, the validator loop visits `[2]` before `[1]`: descending store key,
that is descending operator address, not descending power. -/
theorem rebuildOrder_follows_address_not_power :
    (GetValidator Sample.keepers Sample.twoValidators [1]).map Validator.Tokens = some 100 ∧
    (GetValidator Sample.keepers Sample.twoValidators [2]).map Validator.Tokens = some 50 ∧
    rebuildOrder Sample.keepers Sample.twoValidators = [[2], [1]] ∧
    (prepForZeroHeightGenesis Sample.keepers Sample.ctx [] Sample.twoValidators).state.calls.filter
        (fun c => match c with
          | .SetValidator _ _ => true
          | _ => false) =
      [Call.SetValidator 42 [2], Call.SetValidator 42 [1]] := by
  refine ⟨by decide, by decide, by decide, by decide⟩

/-! ## Claims about ExportAppStateAndValidators -/

/-- The state in which the export reads run differs from the state the call ends
in by logged reads only. -/
theorem ExportAppStateAndValidators_returned {C ρ : Type} [Add C] (a : App C ρ)
    (forZeroHeight : Bool) (jailAllowedAddrs : List String) (s t : State C ρ)
    (app : ExportedApp) (err : Option String)
    (h : ExportAppStateAndValidators a forZeroHeight jailAllowedAddrs s = .returned (app, err) t) :
    ∃ s₁ : State C ρ, s₁.stores = t.stores ∧
      (forZeroHeight = false → s₁ = s) ∧
      ((∃ e, a.MarshalIndent (a.ExportGenesis (exportContext a) s₁.stores) = .error e ∧
          app = ExportedApp.empty ∧ err = some e ∧
          t.calls = s₁.calls ++ [Call.ExportGenesis (exportContext a).BlockHeight]) ∨
       (∃ appState e, a.MarshalIndent (a.ExportGenesis (exportContext a) s₁.stores) = .ok appState ∧
          a.WriteValidators (exportContext a) s₁.stores = .error e ∧
          app = ExportedApp.empty ∧ err = some e ∧
          t.calls = s₁.calls ++ [Call.ExportGenesis (exportContext a).BlockHeight,
            Call.WriteValidators (exportContext a).BlockHeight]) ∨
       (∃ appState validators,
          a.MarshalIndent (a.ExportGenesis (exportContext a) s₁.stores) = .ok appState ∧
          a.WriteValidators (exportContext a) s₁.stores = .ok validators ∧
          app = { AppState := appState, Validators := validators,
                  Height := if forZeroHeight then 0 else wrapInt64 (a.LastBlockHeight + 1),
                  ConsensusParams := a.GetConsensusParams (exportContext a) s₁.stores } ∧
          err = none ∧
          t.calls = s₁.calls ++ [Call.ExportGenesis (exportContext a).BlockHeight,
            Call.WriteValidators (exportContext a).BlockHeight,
            Call.GetConsensusParams (exportContext a).BlockHeight])) := by
  unfold ExportAppStateAndValidators at h
  simp only at h
  generalize hprep : (if forZeroHeight = true then
      prepForZeroHeightGenesis a.keepers (exportContext a) jailAllowedAddrs s
    else Outcome.returned () s) = o at h
  cases o with
  | aborted why u => simp [Outcome.andThen] at h
  | returned x s₁ =>
    simp only [Outcome.andThen, State.log_stores] at h
    refine ⟨s₁, ?_, ?_, ?_⟩
    · cases hm : a.MarshalIndent (a.ExportGenesis (exportContext a) s₁.stores) with
      | error e =>
        rw [hm] at h
        simp only [Outcome.returned.injEq] at h
        rw [← h.2]; rfl
      | ok appState =>
        rw [hm] at h
        simp only at h
        cases hw : a.WriteValidators (exportContext a) s₁.stores with
        | error e =>
          rw [hw] at h
          simp only [Outcome.returned.injEq] at h
          rw [← h.2]; rfl
        | ok validators =>
          rw [hw] at h
          simp only [Outcome.returned.injEq] at h
          rw [← h.2]; rfl
    · intro hf
      subst hf
      simp only [Bool.false_eq_true, if_false, Outcome.returned.injEq, true_and] at hprep
      exact hprep.symm
    · cases hm : a.MarshalIndent (a.ExportGenesis (exportContext a) s₁.stores) with
      | error e =>
        rw [hm] at h
        simp only [Outcome.returned.injEq, Prod.mk.injEq] at h
        exact Or.inl ⟨e, rfl, h.1.1.symm, h.1.2.symm, by rw [← h.2]; rfl⟩
      | ok appState =>
        rw [hm] at h
        simp only at h
        cases hw : a.WriteValidators (exportContext a) s₁.stores with
        | error e =>
          rw [hw] at h
          simp only [Outcome.returned.injEq, Prod.mk.injEq] at h
          exact Or.inr (Or.inl ⟨appState, e, rfl, rfl, h.1.1.symm, h.1.2.symm,
            by rw [← h.2]; simp⟩)
        | ok validators =>
          rw [hw] at h
          simp only [Outcome.returned.injEq, Prod.mk.injEq] at h
          exact Or.inr (Or.inr ⟨appState, validators, rfl, rfl, h.1.1.symm, h.1.2.symm,
            by rw [← h.2]; simp⟩)

/-- A returning call of `ExportAppStateAndValidators` returns a non-nil error exactly
when encoding the genesis state fails or `staking.WriteValidators` fails, and with
a non-nil error the snapshot is the empty `ExportedApp`. -/
theorem ExportAppStateAndValidators_error_cases {C ρ : Type} [Add C] (a : App C ρ)
    (forZeroHeight : Bool) (jailAllowedAddrs : List String) (s t : State C ρ)
    (app : ExportedApp) (err : Option String)
    (h : ExportAppStateAndValidators a forZeroHeight jailAllowedAddrs s = .returned (app, err) t) :
    (err ≠ none ↔ (encodingFails a t.stores = true ∨ writeValidatorsFails a t.stores = true)) ∧
    (err ≠ none → app = ExportedApp.empty) := by
  obtain ⟨s₁, hst, -, hcases⟩ :=
    ExportAppStateAndValidators_returned a forZeroHeight jailAllowedAddrs s t app err h
  rw [hst] at hcases
  rcases hcases with ⟨e, hm, happ, herr, -⟩ | ⟨appState, e, hm, hw, happ, herr, -⟩ |
      ⟨appState, validators, hm, hw, happ, herr, -⟩
  · refine ⟨?_, fun _ => happ⟩
    simp [herr, encodingFails, hm]
  · refine ⟨?_, fun _ => happ⟩
    simp [herr, encodingFails, writeValidatorsFails, hm, hw]
  · refine ⟨?_, fun hne => absurd herr hne⟩
    simp [herr, encodingFails, writeValidatorsFails, hm, hw]

/-- C7: a returning call of `ExportAppStateAndValidators` returns a non-nil error if
and only if encoding the module genesis state fails, and with a non-nil error
the snapshot is the empty `ExportedApp`. The helper `staking.WriteValidators` is
taken to return a nil error, as it does in the SDK, so that the check of
lines 37-39 never fires. -/
theorem ExportAppStateAndValidators_error_iff_encoding_fails {C ρ : Type} [Add C]
    (a : App C ρ) (forZeroHeight : Bool) (jailAllowedAddrs : List String) (s t : State C ρ)
    (app : ExportedApp) (err : Option String)
    (h : ExportAppStateAndValidators a forZeroHeight jailAllowedAddrs s = .returned (app, err) t)
    (hWV : WriteValidatorsSucceeds a) :
    (err ≠ none ↔ encodingFails a t.stores = true) ∧
    (err ≠ none → app = ExportedApp.empty) := by
  obtain ⟨hiff, hempty⟩ :=
    ExportAppStateAndValidators_error_cases a forZeroHeight jailAllowedAddrs s t app err h
  have hw : writeValidatorsFails a t.stores = false := by
    obtain ⟨validators, hv⟩ := hWV (exportContext a) t.stores
    simp [writeValidatorsFails, hv]
  refine ⟨?_, hempty⟩
  rw [hiff, hw]
  simp

/-- Witness for C7: with an encoder that fails the call returns the encoder's error
and the empty snapshot; with the encoder of the sample application it returns
no error. -/
theorem ExportAppStateAndValidators_error_iff_encoding_fails_witness :
    (∃ t, ExportAppStateAndValidators Sample.appEncodingFails false [] Sample.state =
        .returned (ExportedApp.empty, some "unsupported value") t ∧
      (some "unsupported value" ≠ none ↔ encodingFails Sample.appEncodingFails t.stores = true)) ∧
    (∃ app t, ExportAppStateAndValidators Sample.app false [] Sample.state =
        .returned (app, none) t ∧ encodingFails Sample.app t.stores = false) :=
  ⟨⟨_, rfl, (ExportAppStateAndValidators_error_iff_encoding_fails Sample.appEncodingFails false []
      Sample.state _ ExportedApp.empty (some "unsupported value") rfl
      (fun _ _ => ⟨_, rfl⟩)).1⟩,
   ⟨_, _, rfl, by decide⟩⟩

/-- C8: in a successful call of `ExportAppStateAndValidators` the reported height is
0 when `forZeroHeight` is set; otherwise it is the `int64` sum of the last
block height and 1, which is the last block height plus 1 for every height
below the largest `int64`. -/
theorem ExportAppStateAndValidators_height {C ρ : Type} [Add C] (a : App C ρ)
    (forZeroHeight : Bool) (jailAllowedAddrs : List String) (s t : State C ρ)
    (app : ExportedApp)
    (h : ExportAppStateAndValidators a forZeroHeight jailAllowedAddrs s = .returned (app, none) t) :
    (forZeroHeight = true → app.Height = 0) ∧
    (forZeroHeight = false → app.Height = wrapInt64 (a.LastBlockHeight + 1)) ∧
    (forZeroHeight = false → -2 ^ 63 ≤ a.LastBlockHeight → a.LastBlockHeight < 2 ^ 63 - 1 →
      app.Height = a.LastBlockHeight + 1) := by
  obtain ⟨s₁, -, -, hcases⟩ :=
    ExportAppStateAndValidators_returned a forZeroHeight jailAllowedAddrs s t app none h
  rcases hcases with ⟨e, -, -, herr, -⟩ | ⟨appState, e, -, -, -, herr, -⟩ |
      ⟨appState, validators, -, -, happ, -, -⟩
  · cases herr
  · cases herr
  · subst happ
    refine ⟨fun hf => by simp [hf], fun hf => by simp [hf], fun hf hlo hhi => ?_⟩
    simp only [hf, Bool.false_eq_true, if_false, wrapInt64]
    omega

/-- Witness for C8: at last block height 42 the reported height is 43, and with
`forZeroHeight` it is 0. -/
theorem ExportAppStateAndValidators_height_witness :
    (∃ app t, ExportAppStateAndValidators Sample.app false [] Sample.state =
        .returned (app, none) t ∧ app.Height = 42 + 1) ∧
    (∃ app t, ExportAppStateAndValidators Sample.app true ["A", "B"] Sample.state =
        .returned (app, none) t ∧ app.Height = 0) :=
  ⟨⟨_, _, rfl, (ExportAppStateAndValidators_height Sample.app false [] Sample.state _ _ rfl).2.2
      rfl (by decide) (by decide)⟩,
   ⟨_, _, rfl, (ExportAppStateAndValidators_height Sample.app true ["A", "B"] Sample.state _ _
      rfl).1 rfl⟩⟩

/-- C9, as the claim states it, fails: at last block height 42 without
`forZeroHeight`, the context of the reads has block height 42, not 43; the
genesis export sees 42 while the reported height is 43. -/
theorem exportContext_height_is_not_reported_height :
    (exportContext Sample.app).BlockHeight = 42 ∧
    (exportContext Sample.app).BlockHeight ≠ Sample.app.LastBlockHeight + 1 ∧
    ∃ app t, ExportAppStateAndValidators Sample.app false [] Sample.state =
        .returned (app, none) t ∧
      app.Height = 43 ∧ app.AppState = [42] ∧
      t.calls = [Call.ExportGenesis 42, Call.WriteValidators 42, Call.GetConsensusParams 42] :=
  ⟨by decide, by decide, _, _, rfl, by decide, by decide, by decide⟩

/-- C9, amended: without `forZeroHeight`, a successful call of
`ExportAppStateAndValidators` reads the module state, the validator list and the
consensus parameters with a context whose block height is the last block
height, on the entry stores, and reports the `int64` sum of that height and 1. -/
theorem ExportAppStateAndValidators_reads_at_last_height {C ρ : Type} [Add C] (a : App C ρ)
    (jailAllowedAddrs : List String) (s t : State C ρ) (app : ExportedApp)
    (h : ExportAppStateAndValidators a false jailAllowedAddrs s = .returned (app, none) t) :
    ∃ ctx : Context, ctx.BlockHeight = a.LastBlockHeight ∧
      a.MarshalIndent (a.ExportGenesis ctx s.stores) = .ok app.AppState ∧
      a.WriteValidators ctx s.stores = .ok app.Validators ∧
      app.ConsensusParams = a.GetConsensusParams ctx s.stores ∧
      app.Height = wrapInt64 (a.LastBlockHeight + 1) ∧
      t.calls = s.calls ++ [Call.ExportGenesis a.LastBlockHeight,
        Call.WriteValidators a.LastBlockHeight, Call.GetConsensusParams a.LastBlockHeight] := by
  obtain ⟨s₁, -, hs, hcases⟩ :=
    ExportAppStateAndValidators_returned a false jailAllowedAddrs s t app none h
  have hs₁ := hs rfl
  subst hs₁
  rcases hcases with ⟨e, -, -, herr, -⟩ | ⟨appState, e, -, -, -, herr, -⟩ |
      ⟨appState, validators, hm, hw, happ, -, hc⟩
  · cases herr
  · cases herr
  · subst happ
    exact ⟨exportContext a, rfl, hm, hw, rfl, by simp, hc⟩

/-- Witness for the amended C9: the sample application at last block height 42. -/
theorem ExportAppStateAndValidators_reads_at_last_height_witness :
    ∃ ctx : Context, ctx.BlockHeight = 42 ∧
      Sample.app.MarshalIndent (Sample.app.ExportGenesis ctx Sample.state.stores) = .ok [42] :=
  (ExportAppStateAndValidators_reads_at_last_height Sample.app [] Sample.state _ _ rfl).imp
    fun _ hx => ⟨hx.1, hx.2.1⟩

end HdcExport
